import Mathlib

/-!
Verification of the dialectical-debate graph core.

This file gives a shallow embedding, in Lean 4, of the graph-building core of
the repository (src/src/debate_graph.py, src/src/phase3_nodes.py,
src/src/phase3_edges.py, src/src/branch_selector.py, src/src/linearization.py,
src/src/branch_stub.py, src/src/context_retrieval.py) and proves the listed
properties about it.

Modelling conventions:
- Python strings are Lean `String` / `List Char`; Python `str.lower`, substring
  membership (`in`), `re` word matching, and `str.split` are modelled
  character by character for ASCII text, which is what the code manipulates.
- Python floats are modelled as exact rationals `ℚ` (the scores involved are
  small dyadic/decimal combinations; the spec reasons about them as exact
  numbers).
- `datetime` timestamps are modelled as `Nat` (only their total order and
  equality are used by the code; `isoformat`/`fromisoformat` is an exact
  round-trip, modelled as the identity).
- Python `dict` (insertion-ordered) is modelled as an association list with
  insertion-ordered update; Python `set` is modelled as `Finset`.
- `raise` is modelled with `Except`; an LLM call is an oracle parameter.
-/

namespace DialecticalDebate

/-! ## Data model (src/src/debate_graph.py) -/

/-- NodeType enum (debate_graph.py lines 20-27). -/
inductive NodeType where
  | SYNTHESIS
  | IMPASSE
  | LEMMA
  | QUESTION
  | EXPLORATION
  | CLARIFICATION
deriving DecidableEq

/-- The `.value` string of each NodeType member. -/
def NodeType.value : NodeType → String
  | .SYNTHESIS => "synthesis"
  | .IMPASSE => "impasse"
  | .LEMMA => "lemma"
  | .QUESTION => "question"
  | .EXPLORATION => "exploration"
  | .CLARIFICATION => "clarification"

/-- Inverse of `NodeType.value`, as used by `NodeType(data['node_type'])`. -/
def nodeTypeOfValue (s : String) : Option NodeType :=
  if s = "synthesis" then some .SYNTHESIS
  else if s = "impasse" then some .IMPASSE
  else if s = "lemma" then some .LEMMA
  else if s = "question" then some .QUESTION
  else if s = "exploration" then some .EXPLORATION
  else if s = "clarification" then some .CLARIFICATION
  else none

/-- EdgeType enum (debate_graph.py lines 30-41). -/
inductive EdgeType where
  | BRANCHES_FROM
  | CONTRADICTS
  | ELABORATES
deriving DecidableEq

/-- The `.value` string of each EdgeType member. -/
def EdgeType.value : EdgeType → String
  | .BRANCHES_FROM => "branches_from"
  | .CONTRADICTS => "contradicts"
  | .ELABORATES => "elaborates"

/-- Inverse of `EdgeType.value`, as used by `EdgeType(data['edge_type'])`. -/
def edgeTypeOfValue (s : String) : Option EdgeType :=
  if s = "branches_from" then some .BRANCHES_FROM
  else if s = "contradicts" then some .CONTRADICTS
  else if s = "elaborates" then some .ELABORATES
  else none

/-- One serialized debate turn, as stored in `turns_data`
(a dict with agent_name, content, round_num). -/
structure Turn where
  agent_name : String
  content : String
  round_num : Nat
deriving DecidableEq

/-- ArgumentNode dataclass (debate_graph.py lines 44-59).
`theme_tags` is a Python set, modelled as a `Finset`;
`created_at` is a datetime, modelled as a `Nat` timestamp. -/
structure ArgumentNode where
  node_id : String
  node_type : NodeType
  topic : String
  resolution : String
  passage : Option String := none
  branch_question : Option String := none
  theme_tags : Finset String := ∅
  key_claims : List String := []
  created_at : Nat := 0
  turns_data : List Turn := []
deriving DecidableEq

/-- Edge dataclass (debate_graph.py lines 115-123). -/
structure Edge where
  from_node_id : String
  to_node_id : String
  edge_type : EdgeType
  description : Option String := none
  confidence : ℚ := 1
deriving DecidableEq

/-- Insertion-ordered dictionary update, `d[k] = v` on a Python dict:
an existing key keeps its position, a fresh key is appended. -/
def dictInsert {α : Type} (k : String) (v : α) : List (String × α) → List (String × α)
  | [] => [(k, v)]
  | (k', v') :: t => if k' = k then (k', v) :: t else (k', v') :: dictInsert k v t

/-- DebateDAG (debate_graph.py lines 150-159): `nodes` is an id-keyed dict,
`edges` a list, `metadata` a string dict (content passed through verbatim). -/
structure DebateDAG where
  nodes : List (String × ArgumentNode) := []
  edges : List Edge := []
  metadata : List (String × String) := []
deriving DecidableEq

/-- The key list of the node dict. -/
def DebateDAG.keys (g : DebateDAG) : List String := g.nodes.map Prod.fst

/-- DebateDAG.add_node (debate_graph.py lines 161-165). -/
def addNode (g : DebateDAG) (n : ArgumentNode) : Except String DebateDAG :=
  if n.node_id ∈ g.keys then
    .error ("Node " ++ n.node_id ++ " already exists in graph")
  else
    .ok { g with nodes := dictInsert n.node_id n g.nodes }

/-- Whether an edge with the same (from, to, kind) triple is already stored,
the duplicate check of add_edge (debate_graph.py lines 176-181). -/
def hasTriple (es : List Edge) (e : Edge) : Bool :=
  es.any (fun x =>
    x.from_node_id = e.from_node_id ∧ x.to_node_id = e.to_node_id ∧
      x.edge_type = e.edge_type)

/-- DebateDAG.add_edge (debate_graph.py lines 167-183). -/
def addEdge (g : DebateDAG) (e : Edge) : Except String DebateDAG :=
  if e.from_node_id ∉ g.keys then
    .error ("Source node " ++ e.from_node_id ++ " not found in graph")
  else if e.to_node_id ∉ g.keys then
    .error ("Target node " ++ e.to_node_id ++ " not found in graph")
  else if hasTriple g.edges e then
    .ok g
  else
    .ok { g with edges := g.edges ++ [e] }

/-- A graph-mutating operation: one add_node or add_edge call. -/
inductive GraphOp where
  | node : ArgumentNode → GraphOp
  | edge : Edge → GraphOp

/-- Apply one operation; a raised error leaves the graph unchanged. -/
def applyOp (g : DebateDAG) : GraphOp → DebateDAG
  | .node n => match addNode g n with | .ok g' => g' | .error _ => g
  | .edge e => match addEdge g e with | .ok g' => g' | .error _ => g

/-- The empty graph that `DebateDAG.__init__` creates (metadata content aside). -/
def emptyDAG : DebateDAG := {}

/-- Run a sequence of operations starting from the empty graph. -/
def runOps (ops : List GraphOp) : DebateDAG := ops.foldl applyOp emptyDAG

/-- No two stored edges share the identical (from, to, kind) triple. -/
def TriplesNodup (es : List Edge) : Prop :=
  es.Pairwise (fun a b =>
    ¬(a.from_node_id = b.from_node_id ∧ a.to_node_id = b.to_node_id ∧
      a.edge_type = b.edge_type))

/-- Whether an Except value is an error. -/
def isErr {ε α : Type} : Except ε α → Bool
  | .error _ => true
  | .ok _ => false

lemma addNode_ok_edges {g : DebateDAG} {n : ArgumentNode} {g' : DebateDAG}
    (h : addNode g n = .ok g') : g'.edges = g.edges := by
  simp only [addNode] at h
  split at h
  · exact absurd h (by simp)
  · cases h; rfl

lemma addEdge_ok_edges {g : DebateDAG} {e : Edge} {g' : DebateDAG}
    (h : addEdge g e = .ok g') :
    g'.edges = g.edges ∨ (g'.edges = g.edges ++ [e] ∧ hasTriple g.edges e = false) := by
  simp only [addEdge] at h
  split at h
  · exact absurd h (by simp)
  · split at h
    · exact absurd h (by simp)
    · split at h
      · cases h; exact Or.inl rfl
      · cases h; exact Or.inr ⟨rfl, by simp_all⟩

lemma applyOp_triplesNodup (g : DebateDAG) (op : GraphOp)
    (h : TriplesNodup g.edges) : TriplesNodup (applyOp g op).edges := by
  cases op with
  | node n =>
    simp only [applyOp]
    cases hc : addNode g n with
    | error _ => exact h
    | ok g' => rw [addNode_ok_edges hc]; exact h
  | edge e =>
    simp only [applyOp]
    cases hc : addEdge g e with
    | error _ => exact h
    | ok g' =>
      rcases addEdge_ok_edges hc with he | ⟨he, hdup⟩
      · rw [he]; exact h
      · rw [he]
        simp only [TriplesNodup, List.pairwise_append, List.pairwise_cons,
          List.not_mem_nil]
        refine ⟨h, by simp, ?_⟩
        intro a ha b hb
        simp only [List.mem_singleton] at hb
        subst hb
        simp only [hasTriple, List.any_eq_false, decide_eq_true_eq, not_and] at hdup
        intro hcon
        exact hdup a ha hcon.1 hcon.2.1 hcon.2.2

lemma runOps_triplesNodup (ops : List GraphOp) : TriplesNodup (runOps ops).edges := by
  suffices h : ∀ g, TriplesNodup g.edges → TriplesNodup (ops.foldl applyOp g).edges by
    exact h emptyDAG (by simp [emptyDAG, TriplesNodup])
  induction ops with
  | nil => intro g h; simpa using h
  | cons op rest ih =>
    intro g h
    exact ih _ (applyOp_triplesNodup g op h)

/-- C1. Graph insertion invariants: starting from the empty graph, after any
sequence of add_node/add_edge operations, (i) no two stored edges share the
identical (from, to, kind) triple; (ii) add_node raises exactly when the id is
already present; (iii) add_edge raises exactly when an endpoint id is absent
from the node map; (iv) inserting a duplicate (from, to, kind) edge with valid
endpoints returns with the graph (hence the edge list) unchanged rather than
raising. -/
theorem graph_insertion_invariants (ops : List GraphOp) :
    TriplesNodup (runOps ops).edges
    ∧ (∀ n : ArgumentNode,
        isErr (addNode (runOps ops) n) = true ↔ n.node_id ∈ (runOps ops).keys)
    ∧ (∀ e : Edge,
        isErr (addEdge (runOps ops) e) = true ↔
          (e.from_node_id ∉ (runOps ops).keys ∨ e.to_node_id ∉ (runOps ops).keys))
    ∧ (∀ e : Edge,
        e.from_node_id ∈ (runOps ops).keys → e.to_node_id ∈ (runOps ops).keys →
        hasTriple (runOps ops).edges e = true →
        addEdge (runOps ops) e = .ok (runOps ops)) := by
  refine ⟨runOps_triplesNodup ops, ?_, ?_, ?_⟩
  · intro n
    simp only [addNode]
    split <;> simp_all [isErr]
  · intro e
    simp only [addEdge]
    split
    · simp_all [isErr]
    · split
      · simp_all [isErr]
      · split <;> simp_all [isErr]
  · intro e hf ht hdup
    simp [addEdge, not_not_intro hf, not_not_intro ht, hdup]

/-- Concrete node used by witnesses. -/
def witNodeA : ArgumentNode :=
  { node_id := "a", node_type := NodeType.EXPLORATION, topic := "t", resolution := "r" }

/-- Concrete node used by witnesses. -/
def witNodeB : ArgumentNode :=
  { node_id := "b", node_type := NodeType.SYNTHESIS, topic := "t2", resolution := "r2",
    created_at := 1 }

/-- Concrete edge used by witnesses. -/
def witEdgeAB : Edge :=
  { from_node_id := "a", to_node_id := "b", edge_type := EdgeType.BRANCHES_FROM }

/-- Concrete op sequence used by the C1 witness. -/
def witOps : List GraphOp := [GraphOp.node witNodeA, GraphOp.node witNodeB, GraphOp.edge witEdgeAB]

/-- Closed witness for C1: a concrete run in which a node insertion succeeds,
re-inserting the same id raises, an edge insertion with a missing endpoint
raises, and re-inserting an existing (from, to, kind) triple is a no-op. -/
theorem graph_insertion_invariants_witness :
    TriplesNodup (runOps witOps).edges
    ∧ (isErr (addNode (runOps witOps) witNodeA) = true ↔
        witNodeA.node_id ∈ (runOps witOps).keys)
    ∧ witNodeA.node_id ∈ (runOps witOps).keys
    ∧ (isErr (addEdge (runOps witOps) { witEdgeAB with to_node_id := "zzz" }) = true ↔
        (({ witEdgeAB with to_node_id := "zzz" } : Edge).from_node_id ∉ (runOps witOps).keys
          ∨ ({ witEdgeAB with to_node_id := "zzz" } : Edge).to_node_id ∉ (runOps witOps).keys))
    ∧ addEdge (runOps witOps) witEdgeAB = .ok (runOps witOps) := by
  have h := graph_insertion_invariants witOps
  exact ⟨h.1, h.2.1 _, by decide, h.2.2.1 _,
    h.2.2.2 _ (by decide) (by decide) (by decide)⟩

/-! ## Serialization (debate_graph.py lines 84-109, 125-144, 223-253)

The JSON layer is modelled structurally: `to_dict` produces a record whose
fields hold the serialized representations (enum values as strings, the tag
set as a list, the timestamp via its exact `isoformat` round-trip, modelled as
the identity on the `Nat` timestamp), and `json.dump`/`json.load` reproduce
that record verbatim. -/

/-- The dictionary produced by ArgumentNode.to_dict. -/
structure NodeDict where
  node_id : String
  node_type : String
  topic : String
  resolution : String
  passage : Option String
  branch_question : Option String
  theme_tags : List String
  key_claims : List String
  created_at : Nat
  turns_data : List Turn
deriving DecidableEq

/-- ArgumentNode.to_dict (debate_graph.py lines 84-93). `list(self.theme_tags)`
enumerates the set in an unspecified order; it is modelled by the canonical
sorted enumeration of the Finset (any enumeration re-collapses to the same
set on load). -/
def nodeToDict (n : ArgumentNode) : NodeDict :=
  { node_id := n.node_id
    node_type := n.node_type.value
    topic := n.topic
    resolution := n.resolution
    passage := n.passage
    branch_question := n.branch_question
    theme_tags := n.theme_tags.sort (· ≤ ·)
    key_claims := n.key_claims
    created_at := n.created_at
    turns_data := n.turns_data }

/-- ArgumentNode.from_dict (debate_graph.py lines 95-109); `NodeType(value)`
raises on an unknown value, modelled with Option. -/
def nodeFromDict (d : NodeDict) : Option ArgumentNode :=
  match nodeTypeOfValue d.node_type with
  | none => none
  | some t =>
    some { node_id := d.node_id
           node_type := t
           topic := d.topic
           resolution := d.resolution
           passage := d.passage
           branch_question := d.branch_question
           theme_tags := d.theme_tags.toFinset
           key_claims := d.key_claims
           created_at := d.created_at
           turns_data := d.turns_data }

/-- The dictionary produced by Edge.to_dict. -/
structure EdgeDict where
  from_node_id : String
  to_node_id : String
  edge_type : String
  description : Option String
  confidence : ℚ
deriving DecidableEq

/-- Edge.to_dict (debate_graph.py lines 125-133). -/
def edgeToDict (e : Edge) : EdgeDict :=
  { from_node_id := e.from_node_id
    to_node_id := e.to_node_id
    edge_type := e.edge_type.value
    description := e.description
    confidence := e.confidence }

/-- Edge.from_dict (debate_graph.py lines 135-144). -/
def edgeFromDict (d : EdgeDict) : Option Edge :=
  match edgeTypeOfValue d.edge_type with
  | none => none
  | some t =>
    some { from_node_id := d.from_node_id
           to_node_id := d.to_node_id
           edge_type := t
           description := d.description
           confidence := d.confidence }

/-- The JSON document written by DebateDAG.save. -/
structure GraphFile where
  metadata : List (String × String)
  nodes : List NodeDict
  edges : List EdgeDict
deriving DecidableEq

/-- DebateDAG.save (debate_graph.py lines 223-232): nodes are written in
dict-value (insertion) order. -/
def dagSave (g : DebateDAG) : GraphFile :=
  { metadata := g.metadata
    nodes := g.nodes.map (fun p => nodeToDict p.2)
    edges := g.edges.map edgeToDict }

/-- Elementwise Option traversal of a list; `none` as soon as one element fails. -/
def traverseOpt {α β : Type} (f : α → Option β) : List α → Option (List β)
  | [] => some []
  | a :: t =>
    match f a, traverseOpt f t with
    | some b, some bs => some (b :: bs)
    | _, _ => none

/-- DebateDAG.load (debate_graph.py lines 234-253): nodes are re-keyed by
their node_id; a malformed enum value fails the whole load. -/
def dagLoad (f : GraphFile) : Option DebateDAG :=
  match traverseOpt nodeFromDict f.nodes, traverseOpt edgeFromDict f.edges with
  | some nodes, some edges =>
    some { nodes := nodes.foldl (fun acc n => dictInsert n.node_id n acc) []
           edges := edges
           metadata := f.metadata }
  | _, _ => none

/-- Well-formedness of a DebateDAG value as the class maintains it: the node
dict has no duplicate keys and each node is keyed by its own node_id. -/
def WfDAG (g : DebateDAG) : Prop :=
  g.keys.Nodup ∧ ∀ p ∈ g.nodes, p.1 = p.2.node_id

instance : DecidablePred WfDAG := fun g => by
  unfold WfDAG; infer_instance

lemma nodeTypeOfValue_value (t : NodeType) : nodeTypeOfValue t.value = some t := by
  cases t <;> rfl

lemma edgeTypeOfValue_value (t : EdgeType) : edgeTypeOfValue t.value = some t := by
  cases t <;> rfl

lemma nodeFromDict_toDict (n : ArgumentNode) : nodeFromDict (nodeToDict n) = some n := by
  simp only [nodeFromDict, nodeToDict, nodeTypeOfValue_value]
  congr 1
  cases n with
  | mk id ty topic res pas bq tags claims created turns =>
    simp [Finset.sort_toFinset]

lemma edgeFromDict_toDict (e : Edge) : edgeFromDict (edgeToDict e) = some e := by
  simp only [edgeFromDict, edgeToDict, edgeTypeOfValue_value]

lemma foldl_dictInsert_fresh (ns : List ArgumentNode) (acc : List (String × ArgumentNode))
    (hdisj : ∀ n ∈ ns, ∀ p ∈ acc, p.1 ≠ n.node_id)
    (hnd : (ns.map ArgumentNode.node_id).Nodup) :
    ns.foldl (fun acc n => dictInsert n.node_id n acc) acc
      = acc ++ ns.map (fun n => (n.node_id, n)) := by
  induction ns generalizing acc with
  | nil => simp
  | cons n rest ih =>
    have habs : dictInsert n.node_id n acc = acc ++ [(n.node_id, n)] := by
      clear ih hnd
      induction acc with
      | nil => rfl
      | cons p t iha =>
        have hp : p.1 ≠ n.node_id := hdisj n (by simp) p (by simp)
        simp only [dictInsert, if_neg hp, List.cons_append]
        rw [iha]
        intro m hm q hq
        exact hdisj m hm q (by simp [hq])
    simp only [List.foldl_cons, habs]
    rw [ih]
    · simp
    · intro m hm p hp
      rcases List.mem_append.mp hp with hpa | hps
      · exact hdisj m (by simp [hm]) p hpa
      · simp only [List.mem_singleton] at hps
        subst hps
        simp only [List.map_cons, List.nodup_cons] at hnd
        intro hc
        have hc' : n.node_id = m.node_id := hc
        exact hnd.1 (by rw [hc']; exact List.mem_map_of_mem ArgumentNode.node_id hm)
    · simp only [List.map_cons, List.nodup_cons] at hnd
      exact hnd.2

/-- C2. Serialization round-trip: for every well-formed DebateDAG (node-dict
keys distinct and matching each node's id, as add_node maintains), saving to
the JSON document and loading it back reproduces the graph exactly — all node
fields (id, kind, topic, resolution, passage, branch question, tag set, claim
list, turns, timestamp), all edge fields (endpoints, kind, description,
confidence), and the metadata. -/
theorem save_load_roundtrip (g : DebateDAG) (hwf : WfDAG g) :
    dagLoad (dagSave g) = some g := by
  obtain ⟨hnd, hkey⟩ := hwf
  have hn : traverseOpt nodeFromDict (g.nodes.map (fun p => nodeToDict p.2))
      = some (g.nodes.map Prod.snd) := by
    induction g.nodes with
    | nil => rfl
    | cons p t ih =>
      simp only [List.map_cons, traverseOpt, nodeFromDict_toDict, ih]
  have he : traverseOpt edgeFromDict (g.edges.map edgeToDict) = some g.edges := by
    induction g.edges with
    | nil => rfl
    | cons e t ih => simp only [List.map_cons, traverseOpt, edgeFromDict_toDict, ih]
  have hmapid : (g.nodes.map Prod.snd).map ArgumentNode.node_id = g.keys := by
    simp only [DebateDAG.keys, List.map_map]
    exact (List.map_congr_left (fun p hp => (hkey p hp).symm))
  have hfold : (g.nodes.map Prod.snd).foldl (fun acc n => dictInsert n.node_id n acc) []
      = g.nodes := by
    rw [foldl_dictInsert_fresh _ [] (by simp) (by rw [hmapid]; exact hnd)]
    simp only [List.nil_append, List.map_map]
    have : ∀ p ∈ g.nodes, ((fun n => (n.node_id, n)) ∘ Prod.snd) p = id p := by
      intro p hp
      simp [Function.comp, (hkey p hp).symm]
    rw [List.map_congr_left this, List.map_id]
  simp only [dagLoad, dagSave, hn, he, hfold]

/-- Concrete well-formed graph for the C2 witness. -/
def witGraph : DebateDAG :=
  { nodes := [("a", { witNodeA with
                      theme_tags := insert "x" (insert "y" (∅ : Finset String))
                      key_claims := ["c one", "c two"]
                      passage := some "p"
                      turns_data := [{ agent_name := "A", content := "hello", round_num := 1 }] }),
              ("b", { witNodeB with branch_question := some "q" })]
    edges := [{ witEdgeAB with description := some "d", confidence := 4/5 }]
    metadata := [("created_at", "2025-01-01T00:00:00"), ("version", "0.3.0")] }

lemma witGraph_wf : WfDAG witGraph := by
  refine ⟨?_, ?_⟩
  · simp [witGraph, DebateDAG.keys]
  · intro p hp
    simp only [witGraph, List.mem_cons, List.not_mem_nil, or_false] at hp
    rcases hp with h | h <;> subst h <;> rfl

/-- Closed witness for C2: the concrete graph round-trips through save/load. -/
theorem save_load_roundtrip_witness :
    WfDAG witGraph ∧ dagLoad (dagSave witGraph) = some witGraph :=
  ⟨witGraph_wf, save_load_roundtrip witGraph witGraph_wf⟩

/-! ## Text primitives

ASCII models of the Python string operations used by the detectors:
`str.lower`, substring membership (`in`), whitespace `str.split`, and the
word extraction of `re.findall` over word characters. -/

/-- ASCII `str.lower` on one character. -/
def lowerChar (c : Char) : Char :=
  if c.isUpper then Char.ofNat (c.toNat + 32) else c

/-- `s.lower()` as a character list. -/
def lowerData (s : String) : List Char := s.data.map lowerChar

/-- Boolean list-prefix test. -/
def isPrefixOfB : List Char → List Char → Bool
  | [], _ => true
  | _ :: _, [] => false
  | a :: as, b :: bs => a = b && isPrefixOfB as bs

/-- Python substring membership `needle in hay` on character lists. -/
def containsSub (hay needle : List Char) : Bool :=
  match hay with
  | [] => needle.isEmpty
  | _ :: t => isPrefixOfB needle hay || containsSub t needle

/-- Maximal runs of characters satisfying p (used for `str.split()` and the
word regex); characters outside p are separators. -/
def runsBy (p : Char → Bool) (l : List Char) : List (List Char) :=
  let st := l.foldl
    (fun (st : List (List Char) × List Char) c =>
      if p c then (st.1, st.2 ++ [c])
      else if st.2 = [] then (st.1, []) else (st.1 ++ [st.2], []))
    ([], [])
  if st.2 = [] then st.1 else st.1 ++ [st.2]

/-- Python `str.split()` on lowered text: runs of non-whitespace. -/
def splitWS (l : List Char) : List (List Char) := runsBy (fun c => !c.isWhitespace) l

/-- Size of the set underlying a list (Python `len(set(l))` style). -/
def setCard (l : List (List Char)) : Nat := l.dedup.length

/-- Cardinality of the intersection of the sets underlying two lists. -/
def interCard (a b : List (List Char)) : Nat := (a.dedup.filter (· ∈ b)).length

/-- Cardinality of the union of the sets underlying two lists. -/
def unionCard (a b : List (List Char)) : Nat := (a ++ b).dedup.length

/-! ## Completion detection (src/src/phase3_nodes.py lines 20-141) -/

/-- NodeCreationDetector configuration: the max_turns constructor argument
(default 10). -/
structure DetectorCfg where
  max_turns : Nat := 10

/-- Synthesis markers (phase3_nodes.py lines 27-34). -/
def synthesisMarkers : List String :=
  ["we agree", "consensus emerges", "resolved", "synthesis", "converge on",
   "common ground"]

/-- Impasse markers (phase3_nodes.py lines 36-43). -/
def impasseMarkers : List String :=
  ["fundamental disagreement", "irreconcilable", "cannot be resolved",
   "remains in tension", "unresolved", "incompatible"]

/-- Answer indicators used by _question_answered (phase3_nodes.py lines 97-104). -/
def answerIndicators : List String :=
  ["the answer", "resolves to", "we find that", "synthesis", "what emerged",
   "resolution"]

/-- Python `transcript[-k:]`. -/
def lastTurns (k : Nat) (ts : List Turn) : List Turn := ts.drop (ts.length - k)

/-- Lowered text of `" ".join(contents)`. -/
def joinedLower (ts : List Turn) : List Char :=
  lowerData (String.intercalate " " (ts.map Turn.content))

/-- Python truthiness of an optional string (None and "" are falsy). -/
def optTruthy : Option String → Bool
  | none => false
  | some s => s ≠ ""

/-- NodeCreationDetector._question_answered (phase3_nodes.py lines 83-106);
the question argument is unused by the heuristic beyond its truthiness. -/
def questionAnswered (transcript : List Turn) : Bool :=
  if transcript.length < 3 then false
  else
    let recent := joinedLower (lastTurns 3 transcript)
    answerIndicators.any (fun m => containsSub recent m.data)

/-- NodeCreationDetector._detect_repetition (phase3_nodes.py lines 108-141). -/
def detectRepetition (transcript : List Turn) : Bool :=
  if transcript.length < 6 then false
  else
    let recentTurns := transcript.drop (transcript.length - 3)
    let previousTurns := (transcript.drop (transcript.length - 6)).take 3
    let recentWords := (recentTurns.map (fun t => splitWS (lowerData t.content))).flatten
    let previousWords := (previousTurns.map (fun t => splitWS (lowerData t.content))).flatten
    if setCard recentWords = 0 ∨ setCard previousWords = 0 then false
    else
      mkRat (interCard recentWords previousWords) (unionCard recentWords previousWords)
        > mkRat 3 4

/-- NodeCreationDetector.check_completion (phase3_nodes.py lines 45-81). -/
def checkCompletion (cfg : DetectorCfg) (transcript : List Turn)
    (branch_question : Option String) : Bool × Option NodeType :=
  if transcript.length = 0 then (false, none)
  else
    let recent := joinedLower (lastTurns 2 transcript)
    if impasseMarkers.any (fun m => containsSub recent m.data) then
      (true, some NodeType.IMPASSE)
    else if synthesisMarkers.any (fun m => containsSub recent m.data) then
      (true, some NodeType.SYNTHESIS)
    else if optTruthy branch_question && questionAnswered transcript then
      (true, some NodeType.SYNTHESIS)
    else if detectRepetition transcript then
      (true, some NodeType.IMPASSE)
    else if cfg.max_turns ≤ transcript.length then
      (true, some NodeType.EXPLORATION)
    else
      (false, none)

/-- C6. Impasse-first classification: check_completion is a pure function of
the transcript, branch question and the fixed marker lists (it is a Lean
function of exactly these), and whenever the lowercased concatenation of the
last two turns contains any impasse marker it returns (True, Impasse) —
impasse markers are tested before synthesis markers, so text that also
contains a synthesis marker such as "resolved" still classifies Impasse. -/
theorem impasse_marker_classifies_impasse (cfg : DetectorCfg) (transcript : List Turn)
    (branch_question : Option String)
    (h : impasseMarkers.any
          (fun m => containsSub (joinedLower (lastTurns 2 transcript)) m.data) = true) :
    checkCompletion cfg transcript branch_question = (true, some NodeType.IMPASSE) := by
  rcases transcript with _ | ⟨t, ts⟩
  · exact absurd h (by decide)
  · have hne : (t :: ts).length ≠ 0 := by simp
    simp [checkCompletion, if_neg hne, h]

/-- Closed witness for C6: the transcript from the spec, ending with
"...we have reached a fundamental disagreement that cannot be resolved.",
classifies Impasse even though the text contains the synthesis marker
"resolved". -/
theorem impasse_marker_classifies_impasse_witness :
    checkCompletion {} [{ agent_name := "A", content := "An opening statement.", round_num := 1 },
        { agent_name := "B",
          content := "...we have reached a fundamental disagreement that cannot be resolved.",
          round_num := 1 }] none = (true, some NodeType.IMPASSE) :=
  impasse_marker_classifies_impasse {} _ none (by decide)

/-- C7. Forced termination at the turn budget: with a positive configured
max_turns (default 10), once the transcript length reaches max_turns the
detector returns a definite completion answer (first component True), and if
no earlier rule fires (impasse markers, synthesis markers, question-answered,
repetition) the result is exactly (True, Exploration). -/
theorem turn_budget_forces_exploration (cfg : DetectorCfg) (transcript : List Turn)
    (branch_question : Option String)
    (hmax : 1 ≤ cfg.max_turns) (hlen : cfg.max_turns ≤ transcript.length) :
    (checkCompletion cfg transcript branch_question).1 = true
    ∧ (impasseMarkers.any
          (fun m => containsSub (joinedLower (lastTurns 2 transcript)) m.data) = false →
       synthesisMarkers.any
          (fun m => containsSub (joinedLower (lastTurns 2 transcript)) m.data) = false →
       (optTruthy branch_question && questionAnswered transcript) = false →
       detectRepetition transcript = false →
       checkCompletion cfg transcript branch_question = (true, some NodeType.EXPLORATION)) := by
  have hne : transcript.length ≠ 0 := by omega
  constructor
  · simp only [checkCompletion, if_neg hne]
    split_ifs <;> simp_all
  · intro h1 h2 h3 h4
    simp only [checkCompletion, if_neg hne, h1, h2, h3, h4, if_false,
      Bool.false_eq_true, if_pos hlen]

/-- Closed witness for C7: ten marker-free, non-repetitive turns with the
default budget of 10 force (True, Exploration). -/
theorem turn_budget_forces_exploration_witness :
    checkCompletion {}
      ((List.range 10).map (fun i =>
        { agent_name := "A", content := "word" ++ toString i, round_num := i }))
      none = (true, some NodeType.EXPLORATION) := by
  have h := turn_budget_forces_exploration {}
    ((List.range 10).map (fun i =>
      { agent_name := "A", content := "word" ++ toString i, round_num := i }))
    none (by decide) (by decide)
  exact h.2 (by decide) (by decide) (by decide) (by rfl)

/-! ## Contradiction signals (src/src/phase3_edges.py lines 336-381 and
src/src/context_retrieval.py lines 207-213)

Python float division of counts is modelled as the exact rational `mkRat`. -/

/-- A regex word character (\w, ASCII). -/
def wordChar (c : Char) : Bool := c.isAlpha || c.isDigit || c = '_'

/-- SimpleSimilarity._extract_words (context_retrieval.py lines 207-213):
lowercase, maximal word-character runs, keep only words longer than
2 characters. -/
def extractWords (s : String) : List (List Char) :=
  (runsBy wordChar (lowerData s)).filter (fun w => 2 < w.length)

/-- Word-overlap ratio of two claims (phase3_edges.py lines 369-372):
shared words over union of words, denominator floored at 1. -/
def overlapRatio (c1 c2 : String) : ℚ :=
  mkRat (interCard (extractWords c1) (extractWords c2))
    (max (unionCard (extractWords c1) (extractWords c2)) 1)

/-- The negation-marker test of _check_contradictory_claims
(phase3_edges.py lines 362-367): per cue, one side contains it and the
other does not. -/
def hasNegation (c1 c2 : String) : Bool :=
  ((containsSub (lowerData c1) "not".data && !containsSub (lowerData c2) "not".data)
    || (containsSub (lowerData c2) "not".data && !containsSub (lowerData c1) "not".data))
  || ((containsSub (lowerData c1) "no ".data && !containsSub (lowerData c2) "no ".data)
    || (containsSub (lowerData c2) "no ".data && !containsSub (lowerData c1) "no ".data))

/-- One pair comparison of _check_contradictory_claims: negation marker plus
word overlap above 0.3. -/
def contradictoryPair (c1 c2 : String) : Bool :=
  hasNegation c1 c2 && (overlapRatio c1 c2 > mkRat 3 10)

/-- EdgeDetector._check_contradictory_claims (phase3_edges.py lines 336-381),
with its nested loops carried as (total, contradictions) counters. -/
def checkContradictoryClaims (claims1 claims2 : List String) : ℚ :=
  if claims1 = [] ∨ claims2 = [] then 0
  else
    let st := claims1.foldl
      (fun (st : Nat × Nat) c1 =>
        claims2.foldl
          (fun (st : Nat × Nat) c2 =>
            (st.1 + 1, if contradictoryPair c1 c2 then st.2 + 1 else st.2))
          st)
      (0, 0)
    if st.1 = 0 then 0 else mkRat st.2 st.1

/-- The C4 sentence as literally worded by the spec: a pair counts iff
exactly one of the two claims contains a negation cue ("not" or "no ") and
the overlap ratio exceeds 0.3; the signal is the counted fraction of pairs,
0.0 when either list is empty. Stated for comparison with the code. -/
def specClaimContradictionSignal (claims1 claims2 : List String) : ℚ :=
  if claims1 = [] ∨ claims2 = [] then 0
  else
    mkRat
      ((claims1.product claims2).countP (fun p =>
        ((containsSub (lowerData p.1) "not".data || containsSub (lowerData p.1) "no ".data)
          != (containsSub (lowerData p.2) "not".data
              || containsSub (lowerData p.2) "no ".data))
        && (overlapRatio p.1 p.2 > mkRat 3 10)))
      (claims1.length * claims2.length)

/-- C4 counterexample: the code counts a pair in which BOTH claims contain a
negation cue (one contains "not", the other "no "), while the claim as
stated (exactly one of the pair contains a negation cue) counts nothing;
at this input the code returns 1 and the spec-worded signal returns 0. -/
theorem claim_contradiction_signal_counterexample :
    checkContradictoryClaims ["the answer is not here"] ["there is no answer here"]
      ≠ specClaimContradictionSignal ["the answer is not here"] ["there is no answer here"]
    ∧ checkContradictoryClaims ["the answer is not here"] ["there is no answer here"] = 1
    ∧ specClaimContradictionSignal ["the answer is not here"] ["there is no answer here"] = 0 := by
  have h1 : checkContradictoryClaims ["the answer is not here"] ["there is no answer here"]
      = 1 := by rfl
  have h2 : specClaimContradictionSignal ["the answer is not here"] ["there is no answer here"]
      = 0 := by rfl
  refine ⟨?_, h1, h2⟩
  rw [h1, h2]
  exact one_ne_zero

lemma bool_xor_form (a b : Bool) : ((a && !b) || (b && !a)) = (a != b) := by
  cases a <;> cases b <;> rfl

lemma inner_fold_count (c1 : String) (claims2 : List String) (st : Nat × Nat) :
    claims2.foldl
      (fun (st : Nat × Nat) c2 =>
        (st.1 + 1, if contradictoryPair c1 c2 then st.2 + 1 else st.2)) st
    = (st.1 + claims2.length, st.2 + claims2.countP (fun c2 => contradictoryPair c1 c2)) := by
  induction claims2 generalizing st with
  | nil => simp
  | cons c t ih =>
    simp only [List.foldl_cons, ih, List.length_cons, List.countP_cons, Prod.mk.injEq]
    constructor
    · omega
    · split <;> omega

lemma outer_fold_count (claims1 claims2 : List String) (st : Nat × Nat) :
    claims1.foldl
      (fun (st : Nat × Nat) c1 =>
        claims2.foldl
          (fun (st : Nat × Nat) c2 =>
            (st.1 + 1, if contradictoryPair c1 c2 then st.2 + 1 else st.2))
          st) st
    = (st.1 + claims1.length * claims2.length,
       st.2 + (claims1.product claims2).countP (fun p => contradictoryPair p.1 p.2)) := by
  induction claims1 generalizing st with
  | nil => simp [List.product]
  | cons c t ih =>
    simp only [List.foldl_cons, inner_fold_count] at *
    rw [ih]
    simp only [List.length_cons, List.product, List.flatMap_cons, List.countP_append,
      List.countP_map, Prod.mk.injEq, Function.comp_def]
    constructor
    · ring
    · omega

/-- C4 amended. The claim-contradiction signal with "exactly one of the pair
contains a negation cue" corrected to the per-cue rule the code implements:
a claim pair counts as contradictory iff for some single cue ("not" or
"no ") exactly one of the two claims contains that cue, and the word-overlap
ratio (shared words over union of words, alphanumeric words longer than 2
characters, denominator floored at 1) exceeds 0.3; the signal is the number
of such pairs over the total number of claim pairs, and 0.0 when either
claims list is empty. -/
theorem claim_contradiction_signal_amended (claims1 claims2 : List String) :
    checkContradictoryClaims claims1 claims2 =
      if claims1 = [] ∨ claims2 = [] then 0
      else
        mkRat
          ((claims1.product claims2).countP (fun p =>
            ((containsSub (lowerData p.1) "not".data
                != containsSub (lowerData p.2) "not".data)
              || (containsSub (lowerData p.1) "no ".data
                != containsSub (lowerData p.2) "no ".data))
            && (overlapRatio p.1 p.2 > mkRat 3 10)))
          (claims1.length * claims2.length) := by
  have hpred : ∀ p : String × String,
      contradictoryPair p.1 p.2 =
        (((containsSub (lowerData p.1) "not".data
            != containsSub (lowerData p.2) "not".data)
          || (containsSub (lowerData p.1) "no ".data
            != containsSub (lowerData p.2) "no ".data))
        && (overlapRatio p.1 p.2 > mkRat 3 10)) := by
    intro p
    simp only [contradictoryPair, hasNegation, bool_xor_form]
  unfold checkContradictoryClaims
  split
  · rfl
  · rename_i hne
    simp only [outer_fold_count, Nat.zero_add]
    rw [List.countP_congr (fun p _ => by rw [hpred p])]
    split
    · rename_i hz
      push_neg at hne
      rcases Nat.mul_eq_zero.mp hz with h | h
      · exact absurd (List.length_eq_zero.mp h) hne.1
      · exact absurd (List.length_eq_zero.mp h) hne.2
    · rfl

/-! ## Contradicts detection (src/src/phase3_edges.py lines 25-201) -/

/-- A contradiction/elaboration regex of phase3_edges.py: a word-boundary
anchored stem; closed is true when the regex also ends with a boundary. -/
structure Pat where
  word : String
  closed : Bool

/-- EdgeDetector contradiction patterns (phase3_edges.py lines 38-50). -/
def contradictionPatterns : List Pat :=
  [⟨"contradict", false⟩, ⟨"oppose", false⟩, ⟨"disagree", false⟩, ⟨"refute", false⟩,
   ⟨"counter", false⟩, ⟨"against", true⟩, ⟨"however", true⟩, ⟨"but", true⟩,
   ⟨"although", true⟩, ⟨"conversely", true⟩, ⟨"contrary", true⟩]

/-- Trailing word boundary: end of text or a non-word character. -/
def boundaryAfter (l : List Char) : Bool :=
  match l with
  | [] => true
  | c :: _ => !wordChar c

/-- Whether pattern p matches at the head of l (the leading boundary is
checked by the caller). -/
def patMatchesAt (p : Pat) (l : List Char) : Bool :=
  isPrefixOfB p.word.data l && (!p.closed || boundaryAfter (l.drop p.word.data.length))

/-- Scan of all positions, tracking whether the previous character is a word
character (so the position is at a word boundary exactly when it is not). -/
def patSearchGo (p : Pat) (prevIsWord : Bool) : List Char → Bool
  | [] => false
  | c :: rest => (!prevIsWord && patMatchesAt p (c :: rest)) || patSearchGo p (wordChar c) rest

/-- `re.search` of one boundary-anchored pattern in lowered text. -/
def patSearch (p : Pat) (text : List Char) : Bool := patSearchGo p false text

/-- EdgeDetector._count_patterns (phase3_edges.py lines 318-334): number of
patterns found, divided by 3, capped at 1.0. -/
def countPatterns (text : String) (pats : List Pat) : ℚ :=
  min (mkRat (pats.countP (fun p => patSearch p (lowerData text))) 3) 1

/-- SimpleSimilarity.compute_similarity (context_retrieval.py lines 178-205):
Jaccard similarity of the word sets of the node text (topic and resolution)
and the candidate text; 0.0 when either word set is empty. -/
def computeSimilarity (node : ArgumentNode) (text : String) : ℚ :=
  let nodeWords := extractWords (node.topic ++ " " ++ node.resolution)
  let textWords := extractWords text
  if nodeWords = [] ∨ textWords = [] then 0
  else mkRat (interCard nodeWords textWords) (unionCard nodeWords textWords)

/-- The single-quote character, written by code point. -/
def sq : String := String.mk [Char.ofNat 39]

/-- Python string slice `s[:k]`. -/
def truncAt (k : Nat) (s : String) : String := String.mk (s.data.take k)

/-- EdgeDetector._generate_contradiction_description (phase3_edges.py
lines 383-388). -/
def contradictionDescription (n1 n2 : ArgumentNode) : String :=
  sq ++ truncAt 50 n1.topic ++ "..." ++ sq ++ " contradicts " ++ sq
    ++ truncAt 50 n2.topic ++ "..." ++ sq

/-- The type-opposition test of _check_contradiction (phase3_edges.py
lines 177-180), on the enum value strings as in the source. -/
def typeOpposition (node1 node2 : ArgumentNode) : Bool :=
  (node1.node_type.value = "synthesis" && node2.node_type.value = "impasse")
  || (node1.node_type.value = "impasse" && node2.node_type.value = "synthesis")

/-- The combined weighted contradiction score (phase3_edges.py lines 168-184):
pattern signal times 0.4, claim signal times 0.4, type signal times 0.2. -/
def contradictionTotal (node1 node2 : ArgumentNode) : ℚ :=
  let patternScore :=
    countPatterns (node1.resolution ++ " " ++ node2.resolution) contradictionPatterns
  let claimScore := checkContradictoryClaims node1.key_claims node2.key_claims
  let typeScore : ℚ :=
    if decide (computeSimilarity node1 node2.topic > mkRat 3 10)
        && typeOpposition node1 node2
    then 1 else 0
  patternScore * mkRat 4 10 + claimScore * mkRat 4 10 + typeScore * mkRat 2 10

/-- EdgeDetector._check_contradiction (phase3_edges.py lines 153-201). -/
def checkContradiction (node1 node2 : ArgumentNode) : Option Edge :=
  let total := contradictionTotal node1 node2
  if total > mkRat 1 2 then
    let fromNode := if node2.created_at > node1.created_at then node2 else node1
    let toNode := if fromNode = node2 then node1 else node2
    some { from_node_id := fromNode.node_id
           to_node_id := toNode.node_id
           edge_type := EdgeType.CONTRADICTS
           description := some (contradictionDescription fromNode toNode)
           confidence := min total 1 }
  else none

/-- C3. Contradicts threshold boundary, direction and confidence: an edge is
produced iff the weighted combination 0.4 times the pattern signal plus 0.4
times the claim signal plus 0.2 times the type-opposition signal is strictly
greater than 0.5 (a combined score of exactly 0.5 produces no edge); when
produced and the two timestamps differ, the edge runs from the
chronologically later node to the earlier one, its kind is Contradicts, and
its confidence is the combined score capped at 1.0. -/
theorem contradiction_threshold_direction_confidence (node1 node2 : ArgumentNode) :
    ((checkContradiction node1 node2).isSome = true ↔
      countPatterns (node1.resolution ++ " " ++ node2.resolution) contradictionPatterns
          * mkRat 4 10
        + checkContradictoryClaims node1.key_claims node2.key_claims * mkRat 4 10
        + (if decide (computeSimilarity node1 node2.topic > mkRat 3 10)
              && typeOpposition node1 node2
            then (1 : ℚ) else 0) * mkRat 2 10
        > mkRat 1 2)
    ∧ (∀ e : Edge, checkContradiction node1 node2 = some e →
        e.edge_type = EdgeType.CONTRADICTS
        ∧ e.confidence = min (contradictionTotal node1 node2) 1
        ∧ (node1.created_at < node2.created_at →
            e.from_node_id = node2.node_id ∧ e.to_node_id = node1.node_id)
        ∧ (node2.created_at < node1.created_at →
            e.from_node_id = node1.node_id ∧ e.to_node_id = node2.node_id)) := by
  have htot : contradictionTotal node1 node2 =
      countPatterns (node1.resolution ++ " " ++ node2.resolution) contradictionPatterns
          * mkRat 4 10
        + checkContradictoryClaims node1.key_claims node2.key_claims * mkRat 4 10
        + (if decide (computeSimilarity node1 node2.topic > mkRat 3 10)
              && typeOpposition node1 node2
            then (1 : ℚ) else 0) * mkRat 2 10 := rfl
  constructor
  · rw [← htot]
    unfold checkContradiction
    by_cases hgt : contradictionTotal node1 node2 > mkRat 1 2
    · simp only [if_pos hgt, Option.isSome_some, true_iff]
      exact hgt
    · simp only [if_neg hgt, Option.isSome_none, Bool.false_eq_true, false_iff]
      exact hgt
  · intro e he
    unfold checkContradiction at he
    by_cases hgt : contradictionTotal node1 node2 > mkRat 1 2
    · rw [if_pos hgt, Option.some.injEq] at he
      subst he
      refine ⟨rfl, rfl, ?_, ?_⟩
      · intro hlt
        have hgt2 : node2.created_at > node1.created_at := hlt
        simp [if_pos hgt2]
      · intro hlt
        have hne2 : ¬(node2.created_at > node1.created_at) := by omega
        have hne : node1 ≠ node2 := by
          intro hq
          rw [hq] at hlt
          omega
        simp [if_neg hne2, if_neg hne]
    · rw [if_neg hgt] at he
      exact absurd he (by simp)

/-- Concrete nodes for the C3 witness: pattern signal 1.0 (three cue words in
the concatenated resolutions), claim signal 1.0, type signal 0, total 0.8. -/
def wit3n1 : ArgumentNode :=
  { node_id := "n1", node_type := NodeType.EXPLORATION, topic := "t1",
    resolution := "calm words here", key_claims := ["alpha beta not"], created_at := 0 }

/-- Second node of the C3 witness pair, created later. -/
def wit3n2 : ArgumentNode :=
  { node_id := "n2", node_type := NodeType.EXPLORATION, topic := "t2",
    resolution := "however but against", key_claims := ["alpha beta"], created_at := 1 }

/-- Closed witness for C3: the concrete pair scores 0.8 (strictly above the
0.5 threshold), the produced edge runs from the later node n2 to the earlier
node n1, and its confidence is the capped score 0.8. -/
theorem contradiction_threshold_direction_confidence_witness :
    (checkContradiction wit3n1 wit3n2).isSome = true
    ∧ ∀ e : Edge, checkContradiction wit3n1 wit3n2 = some e →
        e.edge_type = EdgeType.CONTRADICTS
        ∧ e.from_node_id = "n2" ∧ e.to_node_id = "n1"
        ∧ e.confidence = mkRat 4 5 := by
  have h := contradiction_threshold_direction_confidence wit3n1 wit3n2
  refine ⟨(by with_unfolding_all rfl : (checkContradiction wit3n1 wit3n2).isSome = true), ?_⟩
  intro e he
  have hp := h.2 e he
  have hdir := hp.2.2.1 (by decide)
  refine ⟨hp.1, hdir.1, hdir.2, ?_⟩
  rw [hp.2.1]
  with_unfolding_all rfl

/-! ## BranchesFrom inference (src/src/phase3_edges.py lines 94-131) -/

/-- DebateDAG.get_all_nodes (debate_graph.py lines 219-221): the node values
sorted by created_at. Python sorted is stable; insertion sort with the ≤ key
relation is the same stable sort. -/
def getAllNodes (g : DebateDAG) : List ArgumentNode :=
  List.insertionSort (fun a b => a.created_at ≤ b.created_at) (g.nodes.map Prod.snd)

/-- The BranchesFrom edge built at phase3_edges.py lines 119-125. -/
def mkBranchEdge (root node : ArgumentNode) : Edge :=
  { from_node_id := root.node_id
    to_node_id := node.node_id
    edge_type := EdgeType.BRANCHES_FROM
    description := some ("Branch debate on: "
        ++ truncAt 100 (node.branch_question.getD "") ++ "...")
    confidence := 1 }

/-- The chronological walk of detect_branches_from (phase3_edges.py
lines 106-131), with the running current main-debate node. -/
def branchesFromGo (main : Option ArgumentNode) : List ArgumentNode → List Edge
  | [] => []
  | n :: rest =>
    if optTruthy n.branch_question then
      match main with
      | some r => mkBranchEdge r n :: branchesFromGo main rest
      | none => branchesFromGo main rest
    else
      branchesFromGo (some n) rest

/-- EdgeDetector.detect_branches_from (phase3_edges.py lines 94-131). -/
def detectBranchesFrom (g : DebateDAG) : List Edge :=
  branchesFromGo none (getAllNodes g)

/-- The current root at a point of the walk: the last node of the prefix
without a (truthy) branch question, falling back to the inherited one. -/
def rootBefore (main : Option ArgumentNode) (l : List ArgumentNode) : Option ArgumentNode :=
  match (l.filter (fun m => !optTruthy m.branch_question)).getLast? with
  | some r => some r
  | none => main

lemma rootBefore_cons (main : Option ArgumentNode) (n : ArgumentNode)
    (l : List ArgumentNode) :
    rootBefore main (n :: l)
      = if optTruthy n.branch_question then rootBefore main l
        else rootBefore (some n) l := by
  by_cases hb : optTruthy n.branch_question
  · simp [rootBefore, hb]
  · simp only [rootBefore, List.filter_cons, hb, Bool.not_false, if_pos, if_neg,
      Bool.false_eq_true, ite_false, ite_true]
    cases hf : l.filter (fun m => !optTruthy m.branch_question) with
    | nil => simp [hf]
    | cons y ys => simp [hf, List.getLast?_cons]

/-- The emitted-edge shape at each index of the walk. -/
def branchEdgeAt (main : Option ArgumentNode) (ns : List ArgumentNode) (i : Nat) :
    Option Edge :=
  match ns.get? i with
  | some n =>
    if optTruthy n.branch_question then
      match rootBefore main (ns.take i) with
      | some r => some (mkBranchEdge r n)
      | none => none
    else none
  | none => none

lemma branchEdgeAt_eq_some {main : Option ArgumentNode} {ns : List ArgumentNode}
    {i : Nat} {n : ArgumentNode} (hget : ns.get? i = some n) :
    branchEdgeAt main ns i
      = if optTruthy n.branch_question then
          match rootBefore main (ns.take i) with
          | some r => some (mkBranchEdge r n)
          | none => none
        else none := by
  unfold branchEdgeAt
  rw [hget]

lemma branchEdgeAt_eq_none {main : Option ArgumentNode} {ns : List ArgumentNode}
    {i : Nat} (hget : ns.get? i = none) : branchEdgeAt main ns i = none := by
  unfold branchEdgeAt
  rw [hget]

lemma branchesFromGo_eq (main : Option ArgumentNode) (ns : List ArgumentNode) :
    branchesFromGo main ns
      = (List.range ns.length).filterMap (branchEdgeAt main ns) := by
  induction ns generalizing main with
  | nil => rfl
  | cons n rest ih =>
    rw [List.length_cons, List.range_succ_eq_map, List.filterMap_cons, List.filterMap_map]
    have hshift : ∀ i, (branchEdgeAt main (n :: rest) ∘ Nat.succ) i
        = branchEdgeAt (if optTruthy n.branch_question then main else some n) rest i := by
      intro i
      by_cases hc : optTruthy n.branch_question <;>
        simp [Function.comp, branchEdgeAt, List.get?_cons_succ, List.take_succ_cons,
          rootBefore_cons, hc]
    rw [List.filterMap_congr (fun i _ => hshift i)]
    by_cases hb : optTruthy n.branch_question
    · cases main with
      | some r =>
        have h0 : branchEdgeAt (some r) (n :: rest) 0 = some (mkBranchEdge r n) := by
          simp [branchEdgeAt, rootBefore, hb]
        simp [branchesFromGo, hb, h0, ← ih]
      | none =>
        have h0 : branchEdgeAt none (n :: rest) 0 = none := by
          simp [branchEdgeAt, rootBefore, hb]
        simp [branchesFromGo, hb, h0, ← ih]
    · have h0 : branchEdgeAt main (n :: rest) 0 = none := by
        simp [branchEdgeAt, hb]
      simp [branchesFromGo, hb, h0, ← ih]

lemma countP_filterMap {α β : Type} (f : α → Option β) (p : β → Bool) (l : List α) :
    (l.filterMap f).countP p
      = l.countP (fun a => ((f a).map p).getD false) := by
  induction l with
  | nil => rfl
  | cons a t ih =>
    rw [List.filterMap_cons]
    cases hfa : f a with
    | none => simp [List.countP_cons, hfa, ih]
    | some b =>
      by_cases hp : p b = true
      · simp [List.countP_cons, hfa, ih, hp]
      · simp [List.countP_cons, hfa, ih, Bool.eq_false_iff.mpr hp]

lemma countP_nodup_unique {α : Type} [DecidableEq α] (l : List α) (hl : l.Nodup)
    (p : α → Bool) (a : α)
    (ha : ∀ x ∈ l, p x = true → x = a) :
    l.countP p = if a ∈ l ∧ p a = true then 1 else 0 := by
  induction l with
  | nil => simp
  | cons x t ih =>
    simp only [List.nodup_cons] at hl
    rw [List.countP_cons]
    by_cases hx : p x = true
    · have hxa : x = a := ha x (by simp) hx
      subst hxa
      have hcount : t.countP p = 0 := by
        rw [List.countP_eq_zero]
        intro y hy hpy
        exact absurd (ha y (by simp [hy]) hpy ▸ hy) hl.1
      simp [hcount, hx]
    · have hxa : t.countP p = if a ∈ t ∧ p a = true then 1 else 0 :=
        ih hl.2 (fun y hy hpy => ha y (by simp [hy]) hpy)
      rw [hxa]
      have hne : x ≠ a ∨ p a ≠ true := by
        by_cases hq : x = a
        · subst hq; exact Or.inr hx
        · exact Or.inl hq
      rcases hne with h | h
      · have hiff : ((a = x ∨ a ∈ t) ∧ p a = true) ↔ (a ∈ t ∧ p a = true) := by
          constructor
          · rintro ⟨hm | hm, hp⟩
            · exact absurd hm.symm h
            · exact ⟨hm, hp⟩
          · rintro ⟨hm, hp⟩
            exact ⟨Or.inr hm, hp⟩
        simp only [List.mem_cons, hx, if_false, Bool.false_eq_true, add_zero, hiff]
      · simp [h, hx]

lemma getAllNodes_ids_nodup (g : DebateDAG) (hwf : WfDAG g) :
    ((getAllNodes g).map ArgumentNode.node_id).Nodup := by
  have hperm : (getAllNodes g).Perm (g.nodes.map Prod.snd) :=
    List.perm_insertionSort _ _
  have hids : (g.nodes.map Prod.snd).map ArgumentNode.node_id = g.keys := by
    simp only [DebateDAG.keys, List.map_map]
    exact List.map_congr_left (fun p hp => (hwf.2 p hp).symm)
  exact ((hperm.map ArgumentNode.node_id).nodup_iff).mpr (hids ▸ hwf.1)

lemma getLastQ_eq_none_iff {α : Type} {l : List α} : l.getLast? = none ↔ l = [] := by
  cases l with
  | nil => simp
  | cons x xs => simp [List.getLast?_cons]

lemma ids_nodup_get_inj {ns : List ArgumentNode}
    (h : (ns.map ArgumentNode.node_id).Nodup)
    {i j : Nat} (hi : i < ns.length) (hj : j < ns.length)
    (hid : (ns.get ⟨i, hi⟩).node_id = (ns.get ⟨j, hj⟩).node_id) : i = j := by
  have hi' : i < (ns.map ArgumentNode.node_id).length := by simpa
  have hj' : j < (ns.map ArgumentNode.node_id).length := by simpa
  have hg : (ns.map ArgumentNode.node_id).get ⟨i, hi'⟩
      = (ns.map ArgumentNode.node_id).get ⟨j, hj'⟩ := by
    simp only [List.get_eq_getElem, List.getElem_map]
    simp only [List.get_eq_getElem] at hid
    exact hid
  have := (List.Nodup.get_inj_iff h).mp hg
  exact congrArg Fin.val this

/-- C5. BranchesFrom inference: walking all nodes in chronological order with
the current root being the last-seen node without a branch question, the
produced edge list is exactly one edge per branch-question node that has a
current root, from that root to the node; every produced edge has kind
BranchesFrom and confidence exactly 1.0; and (on a well-formed graph, where
node ids are distinct) each node receives exactly one such edge if it has a
branch question and some root precedes it, and zero edges otherwise — in
particular nodes without a branch question, and branch nodes occurring before
any root, receive none. -/
theorem branches_from_inference (g : DebateDAG) :
    (∀ e ∈ detectBranchesFrom g, e.edge_type = EdgeType.BRANCHES_FROM ∧ e.confidence = 1)
    ∧ detectBranchesFrom g
        = (List.range (getAllNodes g).length).filterMap (branchEdgeAt none (getAllNodes g))
    ∧ (WfDAG g → ∀ i, (hi : i < (getAllNodes g).length) →
        (detectBranchesFrom g).countP
            (fun e => e.to_node_id = ((getAllNodes g).get ⟨i, hi⟩).node_id)
          = if optTruthy ((getAllNodes g).get ⟨i, hi⟩).branch_question
              ∧ ((getAllNodes g).take i).filter
                  (fun m => !optTruthy m.branch_question) ≠ []
            then 1 else 0) := by
  have heq := branchesFromGo_eq none (getAllNodes g)
  refine ⟨?_, heq, ?_⟩
  · intro e he
    rw [detectBranchesFrom, heq] at he
    rcases List.mem_filterMap.mp he with ⟨i, _, hfi⟩
    rcases hget : (getAllNodes g).get? i with _ | n
    · rw [branchEdgeAt_eq_none hget] at hfi
      exact absurd hfi (by simp)
    · rw [branchEdgeAt_eq_some hget] at hfi
      by_cases hb : optTruthy n.branch_question
      · rw [if_pos hb] at hfi
        rcases hroot : rootBefore none ((getAllNodes g).take i) with _ | r <;>
          rw [hroot] at hfi
        · exact absurd hfi (by simp)
        · simp only [Option.some.injEq] at hfi
          subst hfi
          exact ⟨rfl, rfl⟩
      · rw [if_neg hb] at hfi
        exact absurd hfi (by simp)
  · intro hwf i hi
    have hnodup := getAllNodes_ids_nodup g hwf
    rw [detectBranchesFrom, heq, countP_filterMap]
    have hkey : ∀ j ∈ List.range (getAllNodes g).length,
        ((branchEdgeAt none (getAllNodes g) j).map
            (fun e => decide (e.to_node_id = ((getAllNodes g).get ⟨i, hi⟩).node_id))).getD
          false = true → j = i := by
      intro j hj hpj
      have hj' : j < (getAllNodes g).length := List.mem_range.mp hj
      rw [branchEdgeAt_eq_some (List.get?_eq_get hj')] at hpj
      by_cases hb : optTruthy ((getAllNodes g).get ⟨j, hj'⟩).branch_question
      · rw [if_pos hb] at hpj
        rcases hroot : rootBefore none ((getAllNodes g).take j) with _ | r <;> rw [hroot] at hpj
        · exact absurd hpj (by simp)
        · simp only [mkBranchEdge, Option.map_some', Option.getD_some,
            decide_eq_true_eq] at hpj
          exact ids_nodup_get_inj hnodup hj' hi hpj
      · rw [if_neg hb] at hpj
        exact absurd hpj (by simp)
    rw [countP_nodup_unique _ (List.nodup_range _) _ i hkey]
    have hmem : i ∈ List.range (getAllNodes g).length := List.mem_range.mpr hi
    have hpi : ((branchEdgeAt none (getAllNodes g) i).map
          (fun e => decide (e.to_node_id = ((getAllNodes g).get ⟨i, hi⟩).node_id))).getD false
      = (optTruthy ((getAllNodes g).get ⟨i, hi⟩).branch_question
          && !(((getAllNodes g).take i).filter (fun m => !optTruthy m.branch_question)).isEmpty) := by
      rw [branchEdgeAt_eq_some (List.get?_eq_get hi)]
      by_cases hb : optTruthy ((getAllNodes g).get ⟨i, hi⟩).branch_question
      · rw [if_pos hb, hb]
        unfold rootBefore
        cases hf : (((getAllNodes g).take i).filter (fun m => !optTruthy m.branch_question)).getLast? with
        | none =>
          rw [getLastQ_eq_none_iff.mp hf]
          simp
        | some r =>
          have : (((getAllNodes g).take i).filter (fun m => !optTruthy m.branch_question)) ≠ [] := by
            intro hnil
            rw [hnil] at hf
            exact absurd hf (by simp)
          simp [mkBranchEdge, List.isEmpty_iff, this]
      · rw [if_neg hb, Bool.eq_false_iff.mpr hb]
        simp
    rw [if_congr (Iff.rfl.and (by rw [hpi])) rfl rfl]
    have hcond : (i ∈ List.range (getAllNodes g).length ∧
        (optTruthy ((getAllNodes g).get ⟨i, hi⟩).branch_question
          && !(((getAllNodes g).take i).filter
                (fun m => !optTruthy m.branch_question)).isEmpty) = true)
        ↔ (optTruthy ((getAllNodes g).get ⟨i, hi⟩).branch_question = true ∧
            ((getAllNodes g).take i).filter (fun m => !optTruthy m.branch_question) ≠ []) := by
      constructor
      · rintro ⟨_, hP⟩
        simp only [Bool.and_eq_true] at hP
        rcases hP with ⟨h1, h2⟩
        refine ⟨h1, ?_⟩
        intro hnil
        rw [hnil] at h2
        simp at h2
      · rintro ⟨h1, h2⟩
        refine ⟨hmem, ?_⟩
        simp only [Bool.and_eq_true]
        refine ⟨h1, ?_⟩
        rcases hE : ((getAllNodes g).take i).filter (fun m => !optTruthy m.branch_question)
          with _ | ⟨y, ys⟩
        · exact absurd hE h2
        · rw [hE]
          rfl
    rw [if_congr hcond rfl rfl]

/-- Closed witness for C5: on the concrete graph (root node a without a
branch question created first, node b with branch question "q" created
later), every produced edge is BranchesFrom with confidence 1 and node b
receives exactly one edge. -/
theorem branches_from_inference_witness :
    (∀ e ∈ detectBranchesFrom witGraph,
        e.edge_type = EdgeType.BRANCHES_FROM ∧ e.confidence = 1)
    ∧ (1 < (getAllNodes witGraph).length)
    ∧ ∀ h1 : 1 < (getAllNodes witGraph).length,
        (detectBranchesFrom witGraph).countP
          (fun e => e.to_node_id = ((getAllNodes witGraph).get ⟨1, h1⟩).node_id) = 1 := by
  have h := branches_from_inference witGraph
  refine ⟨h.1, by decide, ?_⟩
  intro h1
  rw [h.2.2 witGraph_wf 1 h1]
  have hgetv : (getAllNodes witGraph).get ⟨1, h1⟩
      = { witNodeB with branch_question := some "q" } := rfl
  rw [hgetv]
  decide

/-! ## Branch selection (src/src/branch_selector.py lines 23-98) -/

/-- TensionFlag dataclass (debate_monitor.py lines 24-43); flagged_at is a
timestamp, urgency a float score, both modelled exactly. -/
structure TensionFlag where
  turn_number : Nat
  question : String
  observer_name : String
  urgency : ℚ
  context_excerpt : String
  rationale : String
  flagged_at : Nat := 0
  flag_id : String := ""
deriving DecidableEq

/-- Stable descending insertion by key: the new element goes after every
already-placed element whose key is at least as large, as Python stable
sorting with reverse=True orders equal keys by encounter order. -/
def insertDescBy {α : Type} (key : α → ℚ) (a : α) : List α → List α
  | [] => [a]
  | b :: l => if key a ≤ key b then b :: insertDescBy key a l else a :: b :: l

/-- Python `sorted(l, key=key, reverse=True)` (stable descending). -/
def sortDescBy {α : Type} (key : α → ℚ) (l : List α) : List α :=
  l.foldl (fun acc a => insertDescBy key a acc) []

/-- BranchSelector._compute_diversity (branch_selector.py lines 147-202): the
LLM judgment is an oracle; an empty selected set scores 1.0 and the parsed
score is clamped to [0, 1] (the parse-failure fallback 0.5 is inside the
clamp range, so it is one possible oracle value). -/
def computeDiversity (oracle : TensionFlag → List TensionFlag → ℚ)
    (candidate : TensionFlag) (selected : List TensionFlag) : ℚ :=
  if selected = [] then 1 else max 0 (min 1 (oracle candidate selected))

/-- The best-candidate scan of _select_diverse (branch_selector.py
lines 130-143): best_score starts at -1 and a candidate wins on a strictly
greater diversity. -/
def pickBest (oracle : TensionFlag → List TensionFlag → ℚ)
    (selected remaining : List TensionFlag) : Option TensionFlag × ℚ :=
  remaining.foldl
    (fun (st : Option TensionFlag × ℚ) candidate =>
      let d := computeDiversity oracle candidate selected
      if d > st.2 then (some candidate, d) else st)
    (none, -1)

/-- The while loop of _select_diverse (branch_selector.py lines 128-145),
fuelled by the entry length of the remaining pool: every iteration picks some
element of the nonempty pool (clamped diversity is at least 0 > -1) and
filters it out, so the pool strictly shrinks and the fuel is never exhausted
before the loop guard fails — the fuelled recursion computes exactly the
Python loop. -/
def diverseGo (oracle : TensionFlag → List TensionFlag → ℚ) (maxB : Nat) :
    Nat → List TensionFlag → List TensionFlag → List TensionFlag
  | 0, selected, _ => selected
  | fuel + 1, selected, remaining =>
    if selected.length < maxB ∧ remaining ≠ [] then
      match (pickBest oracle selected remaining).1 with
      | some best =>
        diverseGo oracle maxB fuel (selected ++ [best]) (remaining.filter (· ≠ best))
      | none => selected
    else selected

/-- Python `max(l, key=urgency)`: first element of strictly greatest key. -/
def pyMaxByUrgency (best : TensionFlag) : List TensionFlag → TensionFlag
  | [] => best
  | t :: rest =>
    if t.urgency > best.urgency then pyMaxByUrgency t rest else pyMaxByUrgency best rest

/-- BranchSelector._select_diverse (branch_selector.py lines 109-145). -/
def selectDiverse (oracle : TensionFlag → List TensionFlag → ℚ)
    (tensions : List TensionFlag) (maxB : Nat) : List TensionFlag :=
  if tensions.length ≤ maxB then tensions
  else
    match tensions with
    | [] => []
    | t0 :: rest =>
      let seed := pyMaxByUrgency t0 rest
      let remaining := tensions.filter (· ≠ seed)
      diverseGo oracle maxB remaining.length [seed] remaining

/-- BranchSelector._select_deep and _select_meta (branch_selector.py
lines 204-223 and 268-287): score every candidate through the oracle, stable
descending sort of the (score, tension) pairs by score, take the prefix. -/
def selectScored (score : TensionFlag → ℚ) (tensions : List TensionFlag)
    (maxB : Nat) : List TensionFlag :=
  (((sortDescBy Prod.fst (tensions.map (fun t => (score t, t))))).take maxB).map Prod.snd

/-- BranchSelector._select_urgent (branch_selector.py lines 100-107). -/
def selectUrgent (tensions : List TensionFlag) (maxB : Nat) : List TensionFlag :=
  (sortDescBy TensionFlag.urgency tensions).take maxB

/-- BranchSelector.select_branches (branch_selector.py lines 40-98): empty
and under-budget early returns, strategy dispatch, and the deferred list as
everything not selected. -/
def selectBranches (divOracle : TensionFlag → List TensionFlag → ℚ)
    (depthOracle metaOracle : TensionFlag → ℚ)
    (flagged_tensions : List TensionFlag) (max_branches : Nat) (strategy : String) :
    List TensionFlag × List TensionFlag :=
  if flagged_tensions.length = 0 then ([], [])
  else if flagged_tensions.length ≤ max_branches then (flagged_tensions, [])
  else
    let selected :=
      if strategy = "urgent" then selectUrgent flagged_tensions max_branches
      else if strategy = "deep" then selectScored depthOracle flagged_tensions max_branches
      else if strategy = "meta" then selectScored metaOracle flagged_tensions max_branches
      else selectDiverse divOracle flagged_tensions max_branches
    (selected, flagged_tensions.filter (· ∉ selected))

lemma insertDescBy_perm {α : Type} (key : α → ℚ) (a : α) (l : List α) :
    (insertDescBy key a l).Perm (a :: l) := by
  induction l with
  | nil => rfl
  | cons b t ih =>
    unfold insertDescBy
    split
    · exact ((ih.cons b).trans (List.Perm.swap a b t)).symm.symm
    · rfl

lemma sortDescBy_perm {α : Type} (key : α → ℚ) (l : List α) :
    (sortDescBy key l).Perm l := by
  suffices h : ∀ acc : List α, (l.foldl (fun acc a => insertDescBy key a acc) acc).Perm (l ++ acc) by
    simpa using h []
  induction l with
  | nil => intro acc; simp
  | cons a t ih =>
    intro acc
    simp only [List.foldl_cons, List.cons_append]
    exact (ih _).trans (((insertDescBy_perm key a acc).append_left t).trans
      List.perm_middle)

/-- Selected lists are duplicate-free sublists of the candidate pool. -/
def GoodSel (tensions selected : List TensionFlag) : Prop :=
  selected.Nodup ∧ ∀ x ∈ selected, x ∈ tensions

lemma goodSel_urgent (tensions : List TensionFlag) (hnd : tensions.Nodup) (maxB : Nat) :
    GoodSel tensions (selectUrgent tensions maxB) := by
  have hperm := sortDescBy_perm TensionFlag.urgency tensions
  have hsnd : (sortDescBy TensionFlag.urgency tensions).Nodup := hperm.nodup_iff.mpr hnd
  refine ⟨(List.take_sublist _ _).nodup hsnd, ?_⟩
  intro x hx
  exact hperm.mem_iff.mp (List.mem_of_mem_take hx)

lemma goodSel_scored (score : TensionFlag → ℚ) (tensions : List TensionFlag)
    (hnd : tensions.Nodup) (maxB : Nat) :
    GoodSel tensions (selectScored score tensions maxB) := by
  have hperm := sortDescBy_perm (Prod.fst (β := TensionFlag))
    (tensions.map (fun t => (score t, t)))
  have hsub : List.Sublist
      (((sortDescBy Prod.fst (tensions.map (fun t => (score t, t)))).take maxB).map Prod.snd)
      ((sortDescBy Prod.fst (tensions.map (fun t => (score t, t)))).map Prod.snd) :=
    (List.take_sublist _ _).map Prod.snd
  have hpermsnd : ((sortDescBy Prod.fst (tensions.map (fun t => (score t, t)))).map
      Prod.snd).Perm tensions := by
    have h2 := hperm.map (Prod.snd (α := ℚ))
    rw [List.map_map] at h2
    have h3 : (Prod.snd ∘ fun t : TensionFlag => (score t, t)) = id := by
      funext t
      rfl
    rw [h3, List.map_id] at h2
    exact h2
  constructor
  · exact hsub.nodup (hpermsnd.nodup_iff.mpr hnd)
  · intro x hx
    exact hpermsnd.mem_iff.mp (hsub.mem hx)

lemma computeDiversity_gt_neg_one (oracle : TensionFlag → List TensionFlag → ℚ)
    (c : TensionFlag) (sel : List TensionFlag) : computeDiversity oracle c sel > -1 := by
  unfold computeDiversity
  split
  · norm_num
  · have h0 : (0 : ℚ) ≤ max 0 (min 1 (oracle c sel)) := le_max_left 0 _
    linarith

lemma pickBest_fold_mem (oracle : TensionFlag → List TensionFlag → ℚ)
    (sel : List TensionFlag) :
    ∀ (rem : List TensionFlag) (st : Option TensionFlag × ℚ),
      (rem.foldl
        (fun (st : Option TensionFlag × ℚ) candidate =>
          let d := computeDiversity oracle candidate sel
          if d > st.2 then (some candidate, d) else st) st).1 = st.1
      ∨ ∃ b ∈ rem,
        (rem.foldl
          (fun (st : Option TensionFlag × ℚ) candidate =>
            let d := computeDiversity oracle candidate sel
            if d > st.2 then (some candidate, d) else st) st).1 = some b := by
  intro rem
  induction rem with
  | nil => intro st; exact Or.inl rfl
  | cons c t ih =>
    intro st
    simp only [List.foldl_cons]
    by_cases hd : computeDiversity oracle c sel > st.2
    · rw [if_pos hd]
      rcases ih (some c, computeDiversity oracle c sel) with h | ⟨b, hb, h⟩
      · exact Or.inr ⟨c, by simp, h⟩
      · exact Or.inr ⟨b, by simp [hb], h⟩
    · rw [if_neg hd]
      rcases ih st with h | ⟨b, hb, h⟩
      · exact Or.inl h
      · exact Or.inr ⟨b, by simp [hb], h⟩

lemma pickBest_some (oracle : TensionFlag → List TensionFlag → ℚ)
    (sel : List TensionFlag) (rem : List TensionFlag) (hne : rem ≠ []) :
    ∃ b ∈ rem, (pickBest oracle sel rem).1 = some b := by
  cases rem with
  | nil => exact absurd rfl hne
  | cons c t =>
    unfold pickBest
    simp only [List.foldl_cons]
    rw [if_pos (by simpa using computeDiversity_gt_neg_one oracle c sel)]
    rcases pickBest_fold_mem oracle sel t (some c, computeDiversity oracle c sel)
      with h | ⟨b, hb, h⟩
    · exact ⟨c, by simp, h⟩
    · exact ⟨b, by simp [hb], h⟩

lemma diverseGo_goodSel (oracle : TensionFlag → List TensionFlag → ℚ) (maxB : Nat)
    (tensions : List TensionFlag) :
    ∀ (fuel : Nat) (selected remaining : List TensionFlag),
      selected.Nodup →
      (∀ x ∈ selected, x ∈ tensions) →
      (∀ x ∈ remaining, x ∈ tensions) →
      (∀ x ∈ remaining, x ∉ selected) →
      GoodSel tensions (diverseGo oracle maxB fuel selected remaining) := by
  intro fuel
  induction fuel with
  | zero => intro selected remaining h1 h2 _ _; exact ⟨h1, h2⟩
  | succ n ih =>
    intro selected remaining h1 h2 h3 h4
    unfold diverseGo
    split
    · rename_i hguard
      rcases pickBest_some oracle selected remaining hguard.2 with ⟨b, hbmem, hbeq⟩
      rw [hbeq]
      apply ih
      · rw [List.nodup_append]
        refine ⟨h1, by simp, ?_⟩
        intro x hx hxb
        simp only [List.mem_singleton] at hxb
        subst hxb
        exact h4 x hbmem hx
      · intro x hx
        rcases List.mem_append.mp hx with hx | hx
        · exact h2 x hx
        · simp only [List.mem_singleton] at hx
          exact hx ▸ h3 b hbmem
      · intro x hx
        exact h3 x (List.mem_of_mem_filter hx)
      · intro x hx
        have hxr := List.mem_of_mem_filter hx
        have hxb : x ≠ b := by simpa using (List.of_mem_filter hx)
        intro hmem
        rcases List.mem_append.mp hmem with hm | hm
        · exact h4 x hxr hm
        · simp only [List.mem_singleton] at hm
          exact hxb hm
    · exact ⟨h1, h2⟩

lemma pyMaxByUrgency_mem (best : TensionFlag) (l : List TensionFlag) :
    pyMaxByUrgency best l ∈ best :: l := by
  induction l generalizing best with
  | nil => simp [pyMaxByUrgency]
  | cons t rest ih =>
    unfold pyMaxByUrgency
    split
    · have := ih t
      simp only [List.mem_cons] at this ⊢
      tauto
    · have := ih best
      simp only [List.mem_cons] at this ⊢
      tauto

lemma goodSel_diverse (oracle : TensionFlag → List TensionFlag → ℚ)
    (tensions : List TensionFlag) (hnd : tensions.Nodup) (maxB : Nat) :
    GoodSel tensions (selectDiverse oracle tensions maxB) := by
  unfold selectDiverse
  split
  · exact ⟨hnd, fun x hx => hx⟩
  · cases tensions with
    | nil => exact ⟨List.nodup_nil, by simp⟩
    | cons t0 rest =>
      have hseed : pyMaxByUrgency t0 rest ∈ t0 :: rest := pyMaxByUrgency_mem t0 rest
      apply diverseGo_goodSel
      · simp
      · intro x hx
        simp only [List.mem_singleton] at hx
        exact hx ▸ hseed
      · intro x hx
        exact List.mem_of_mem_filter hx
      · intro x hx
        have hxb : x ≠ pyMaxByUrgency t0 rest := by simpa using (List.of_mem_filter hx)
        simp [hxb]

lemma filter_split_length {α : Type} (p : α → Bool) (l : List α) :
    (l.filter p).length + (l.filter (fun a => !p a)).length = l.length := by
  induction l with
  | nil => rfl
  | cons a t ih =>
    simp only [List.filter_cons]
    cases h : p a <;> simp [h, ← ih] <;> omega

lemma goodSel_conservation (tensions selected : List TensionFlag)
    (hnd : tensions.Nodup) (hg : GoodSel tensions selected) :
    selected.length + (tensions.filter (· ∉ selected)).length = tensions.length := by
  have hfp : (tensions.filter (· ∈ selected)).Perm selected := by
    rw [List.perm_ext_iff_of_nodup (List.Nodup.filter _ hnd) hg.1]
    intro a
    simp only [List.mem_filter, decide_eq_true_eq]
    constructor
    · intro h; exact h.2
    · intro h; exact ⟨hg.2 a h, h⟩
  have hlen := filter_split_length (fun a => decide (a ∈ selected)) tensions
  rw [hfp.length_eq] at hlen
  have : (tensions.filter (fun a => !decide (a ∈ selected)))
      = tensions.filter (· ∉ selected) := by
    apply List.filter_congr
    intro a _
    simp
  rw [this] at hlen
  exact hlen

/-- The strategy dispatch block of select_branches (branch_selector.py
lines 74-82). -/
def dispatchSelect (divOracle : TensionFlag → List TensionFlag → ℚ)
    (depthOracle metaOracle : TensionFlag → ℚ)
    (tensions : List TensionFlag) (maxB : Nat) (strategy : String) : List TensionFlag :=
  if strategy = "urgent" then selectUrgent tensions maxB
  else if strategy = "deep" then selectScored depthOracle tensions maxB
  else if strategy = "meta" then selectScored metaOracle tensions maxB
  else selectDiverse divOracle tensions maxB

lemma goodSel_dispatch (divOracle : TensionFlag → List TensionFlag → ℚ)
    (depthOracle metaOracle : TensionFlag → ℚ)
    (tensions : List TensionFlag) (hnd : tensions.Nodup) (maxB : Nat) (strategy : String) :
    GoodSel tensions (dispatchSelect divOracle depthOracle metaOracle tensions maxB strategy) := by
  unfold dispatchSelect
  split
  · exact goodSel_urgent tensions hnd maxB
  · split
    · exact goodSel_scored depthOracle tensions hnd maxB
    · split
      · exact goodSel_scored metaOracle tensions hnd maxB
      · exact goodSel_diverse divOracle tensions hnd maxB

/-- Concrete flags used by the C8 counterexample and witness. -/
def witFlagA : TensionFlag :=
  { turn_number := 1, question := "qa", observer_name := "o", urgency := mkRat 1 2,
    context_excerpt := "c", rationale := "r" }

/-- Second concrete flag, with higher urgency. -/
def witFlagB : TensionFlag :=
  { turn_number := 2, question := "qb", observer_name := "o", urgency := 1,
    context_excerpt := "c", rationale := "r" }

/-- C8 counterexample: with a duplicated candidate (the same flag listed
twice), the deferred comprehension removes both copies, so
len(selected) + len(deferred) = 1 ≠ 2 = len(candidates) — the conservation
clause of the claim fails on candidate lists with duplicates. -/
theorem selector_conservation_counterexample :
    (selectBranches (fun _ _ => 0) (fun _ => 0) (fun _ => 0)
        [witFlagA, witFlagA] 1 "urgent").1.length
      + (selectBranches (fun _ _ => 0) (fun _ => 0) (fun _ => 0)
          [witFlagA, witFlagA] 1 "urgent").2.length
      ≠ [witFlagA, witFlagA].length := by decide

/-- C8 amended. Selector conservation restricted to duplicate-free candidate
lists: for every list of candidate tension flags, every max_branches and
every strategy, if len(candidates) <= max_branches then selected is the
whole candidate list and deferred is empty; and when the candidates are
pairwise distinct, len(selected) + len(deferred) = len(candidates) and each
candidate appears in exactly one of the two lists. -/
theorem selector_conservation_amended (divOracle : TensionFlag → List TensionFlag → ℚ)
    (depthOracle metaOracle : TensionFlag → ℚ)
    (tensions : List TensionFlag) (maxB : Nat) (strategy : String) :
    (tensions.length ≤ maxB →
      selectBranches divOracle depthOracle metaOracle tensions maxB strategy
        = (tensions, []))
    ∧ (tensions.Nodup →
        (selectBranches divOracle depthOracle metaOracle tensions maxB strategy).1.length
          + (selectBranches divOracle depthOracle metaOracle tensions maxB strategy).2.length
          = tensions.length
        ∧ ∀ t ∈ tensions,
            (t ∈ (selectBranches divOracle depthOracle metaOracle tensions maxB strategy).1
              ↔ t ∉ (selectBranches divOracle depthOracle metaOracle tensions maxB strategy).2)) := by
  constructor
  · intro hle
    unfold selectBranches
    by_cases h0 : tensions.length = 0
    · rw [if_pos h0, List.length_eq_zero.mp h0]
    · rw [if_neg h0, if_pos hle]
  · intro hnd
    by_cases h0 : tensions.length = 0
    · have hnil := List.length_eq_zero.mp h0
      subst hnil
      simp [selectBranches]
    · by_cases hle : tensions.length ≤ maxB
      · have hres : selectBranches divOracle depthOracle metaOracle tensions maxB strategy
            = (tensions, []) := by
          unfold selectBranches
          rw [if_neg h0, if_pos hle]
        rw [hres]
        simp
      · have hres : selectBranches divOracle depthOracle metaOracle tensions maxB strategy
            = (dispatchSelect divOracle depthOracle metaOracle tensions maxB strategy,
               tensions.filter
                 (· ∉ dispatchSelect divOracle depthOracle metaOracle tensions maxB strategy)) := by
          unfold selectBranches dispatchSelect
          rw [if_neg h0, if_neg hle]
        rw [hres]
        have hgood := goodSel_dispatch divOracle depthOracle metaOracle tensions hnd maxB strategy
        refine ⟨goodSel_conservation tensions _ hnd hgood, ?_⟩
        intro t ht
        constructor
        · intro hsel hdef
          have hc := (List.mem_filter.mp hdef).2
          simp only [decide_eq_true_eq] at hc
          exact hc hsel
        · intro hdef
          by_contra hsel
          exact hdef (List.mem_filter.mpr ⟨ht, by simpa using hsel⟩)

/-- Closed witness for C8 amended: two distinct flags; with budget 5 all are
selected and none deferred; with budget 1 and the urgent strategy the
partition covers both flags (1 + 1 = 2). -/
theorem selector_conservation_amended_witness :
    selectBranches (fun _ _ => 0) (fun _ => 0) (fun _ => 0) [witFlagA, witFlagB] 5 "urgent"
      = ([witFlagA, witFlagB], [])
    ∧ (selectBranches (fun _ _ => 0) (fun _ => 0) (fun _ => 0)
          [witFlagA, witFlagB] 1 "urgent").1.length
      + (selectBranches (fun _ _ => 0) (fun _ => 0) (fun _ => 0)
          [witFlagA, witFlagB] 1 "urgent").2.length = 2 := by
  have h1 := (selector_conservation_amended (fun _ _ => 0) (fun _ => 0) (fun _ => 0)
    [witFlagA, witFlagB] 5 "urgent").1 (by decide)
  have h2 := (selector_conservation_amended (fun _ _ => 0) (fun _ => 0) (fun _ => 0)
    [witFlagA, witFlagB] 1 "urgent").2 (by decide)
  exact ⟨h1, h2.1.trans rfl⟩

/-! ## Branch stubs (src/src/branch_stub.py lines 26-242)

The revisit check builds a node digest reading `node.concise_summary`;
the ArgumentNode dataclass (debate_graph.py lines 44-59) declares no such
field and no class in the repository defines one (the only other mention,
app.py line 950, is another read), so the attribute access raises
AttributeError. Attribute lookup is modelled by name over the declared
dataclass fields. -/

/-- A Python-level error. -/
inductive PyError where
  | attributeError
deriving DecidableEq

/-- One value of an ArgumentNode attribute, for modelling Python getattr. -/
inductive AttrVal where
  | str : String → AttrVal
  | optStr : Option String → AttrVal
  | ty : NodeType → AttrVal
  | tags : Finset String → AttrVal
  | claims : List String → AttrVal
  | time : Nat → AttrVal
  | turns : List Turn → AttrVal

/-- Python attribute lookup on an ArgumentNode: the dataclass declares
exactly these ten fields; any other name raises AttributeError. -/
def nodeGetattr (n : ArgumentNode) : String → Except PyError AttrVal
  | "node_id" => .ok (.str n.node_id)
  | "node_type" => .ok (.ty n.node_type)
  | "topic" => .ok (.str n.topic)
  | "resolution" => .ok (.str n.resolution)
  | "passage" => .ok (.optStr n.passage)
  | "branch_question" => .ok (.optStr n.branch_question)
  | "theme_tags" => .ok (.tags n.theme_tags)
  | "key_claims" => .ok (.claims n.key_claims)
  | "created_at" => .ok (.time n.created_at)
  | "turns_data" => .ok (.turns n.turns_data)
  | _ => .error .attributeError

/-- One entry of a stub's revisit_checks audit list. -/
inductive RevisitEntry where
  | check : Nat → ℚ → Bool → String → Nat → RevisitEntry
  | failure : Nat → Nat → RevisitEntry
deriving DecidableEq

/-- BranchStub dataclass (branch_stub.py lines 26-61). -/
structure BranchStub where
  stub_id : String
  question : String
  parent_node_id : String
  flagged_at_turn : Nat
  observer_name : String
  urgency : ℚ
  status : String := "stub"
  created_at : Nat := 0
  revisit_checks : List RevisitEntry := []
  rationale : String := ""
  context_excerpt : String := ""
deriving DecidableEq

/-- The node-digest loop of should_revisit (branch_stub.py lines 94-99):
each of the first ten nodes is read through `node.concise_summary`. The
digest text itself only feeds the generator prompt (an oracle here), so the
model keeps only whether its construction raises. -/
def buildDigest : List (String × ArgumentNode) → Except PyError Unit
  | [] => .ok ()
  | (_, n) :: rest =>
    match nodeGetattr n "concise_summary" with
    | .error e => .error e
    | .ok _ => buildDigest rest

/-- BranchStub.should_revisit (branch_stub.py lines 72-182). The generator
call plus JSON parsing collapse to the oracle `resp` (none models a parse
failure, which the except clause turns into a normal (False, msg) return);
`now` is the logged timestamp. The updated stub (appended revisit_checks)
is returned alongside the (should_explore, reason) pair. -/
def shouldRevisit (stub : BranchStub) (current_dag : DebateDAG) (threshold : ℚ)
    (resp : Option (ℚ × Bool × String)) (now : Nat) :
    Except PyError ((Bool × String) × BranchStub) :=
  if stub.status ≠ "stub" then .ok ((false, "Already " ++ stub.status), stub)
  else
    match buildDigest (current_dag.nodes.take 10) with
    | .error e => .error e
    | .ok _ =>
      match resp with
      | some (relevance, should_explore, reason) =>
        let stub' := { stub with revisit_checks := stub.revisit_checks
          ++ [RevisitEntry.check now relevance should_explore reason
                current_dag.nodes.length] }
        if should_explore && decide (relevance ≥ threshold) then .ok ((true, reason), stub')
        else .ok ((false, reason), stub')
      | none =>
        .ok ((false, "Error evaluating relevance"),
          { stub with revisit_checks := stub.revisit_checks
            ++ [RevisitEntry.failure now current_dag.nodes.length] })

/-- C10. Stub relevance check against the canonical graph type: for every
BranchStub with status "stub" checked against a DebateDAG holding at least
one node, should_revisit raises AttributeError while building the node
digest, because it reads node.concise_summary and ArgumentNode defines no
such attribute; only the status-not-"stub" short circuit and the empty-graph
path return normally. -/
theorem stub_revisit_attribute_error (stub : BranchStub) (dag : DebateDAG)
    (threshold : ℚ) (resp : Option (ℚ × Bool × String)) (now : Nat) :
    (stub.status = "stub" → dag.nodes ≠ [] →
      shouldRevisit stub dag threshold resp now = .error PyError.attributeError)
    ∧ (stub.status ≠ "stub" →
        shouldRevisit stub dag threshold resp now
          = .ok ((false, "Already " ++ stub.status), stub))
    ∧ (stub.status = "stub" → dag.nodes = [] →
        ∃ r, shouldRevisit stub dag threshold resp now = .ok r) := by
  refine ⟨?_, ?_, ?_⟩
  · intro hs hne
    unfold shouldRevisit
    rw [if_neg (by simp [hs])]
    cases hn : dag.nodes with
    | nil => exact absurd hn hne
    | cons p rest =>
      have hdig : buildDigest ((p :: rest).take 10) = .error PyError.attributeError := by
        cases p with
        | mk k n => rfl
      rw [hdig]
  · intro hs
    unfold shouldRevisit
    rw [if_pos hs]
  · intro hs hnil
    unfold shouldRevisit
    rw [if_neg (by simp [hs]), hnil]
    cases resp with
    | none => exact ⟨_, rfl⟩
    | some triple =>
      rcases triple with ⟨relevance, should_explore, reason⟩
      simp only [List.take_nil, buildDigest]
      by_cases hc : (should_explore && decide (relevance ≥ threshold)) = true
      · rw [if_pos hc]
        exact ⟨_, rfl⟩
      · rw [if_neg hc]
        exact ⟨_, rfl⟩

/-- Concrete stub for the C10 witness. -/
def witStub : BranchStub :=
  { stub_id := "s1", question := "q", parent_node_id := "a", flagged_at_turn := 3,
    observer_name := "o", urgency := mkRat 7 10 }

/-- Closed witness for C10: against the concrete nonempty graph the check
raises AttributeError; with status "explored" it returns
(False, "Already explored"); against the empty graph it returns normally. -/
theorem stub_revisit_attribute_error_witness :
    shouldRevisit witStub witGraph (mkRat 6 10) none 0 = .error PyError.attributeError
    ∧ shouldRevisit { witStub with status := "explored" } witGraph (mkRat 6 10) none 0
        = .ok ((false, "Already explored"), { witStub with status := "explored" })
    ∧ ∃ r, shouldRevisit witStub emptyDAG (mkRat 6 10) none 0 = .ok r := by
  refine ⟨?_, ?_, ?_⟩
  · exact (stub_revisit_attribute_error witStub witGraph (mkRat 6 10) none 0).1
      (by decide) (by decide)
  · exact (stub_revisit_attribute_error { witStub with status := "explored" } witGraph
      (mkRat 6 10) none 0).2.1 (by decide)
  · exact (stub_revisit_attribute_error witStub emptyDAG (mkRat 6 10) none 0).2.2
      (by decide) rfl

/-! ## Linearization (src/src/linearization.py lines 21-112)

Kahn's algorithm over the edge list, with the initial zero-in-degree
frontier sorted by node creation time, and a chronological fallback when a
cycle prevents consuming every node (the ValueError is caught by linearize,
which prints a warning and never raises). -/

/-- Successor ids of a node, in edge-insertion order (the adjacency list of
linearization.py lines 63-71). -/
def adjOf (g : DebateDAG) (v : String) : List String :=
  (g.edges.filter (fun e => e.from_node_id = v)).map Edge.to_node_id

/-- Initial in-degree of an id. The running dict value is modelled in ℤ
since it is decremented in place. -/
def indeg0 (g : DebateDAG) (k : String) : ℤ :=
  ((g.edges.filter (fun e => e.to_node_id = k)).length : ℤ)

/-- Number of edges into k whose source is outside the processed set P: the
value the in-degree dict holds after the nodes of P have been processed. -/
def inCount (g : DebateDAG) (P : List String) (k : String) : ℤ :=
  ((g.edges.filter (fun e => e.to_node_id = k ∧ e.from_node_id ∉ P)).length : ℤ)

/-- Number of edges from v to k. -/
def countEdges (g : DebateDAG) (v k : String) : ℤ :=
  ((g.edges.filter (fun e => e.from_node_id = v ∧ e.to_node_id = k)).length : ℤ)

/-- created_at of the node stored under an id (0 when absent; every id the
algorithm handles is present in a well-formed graph). -/
def createdOf (g : DebateDAG) (k : String) : Nat :=
  match g.nodes.find? (fun p => p.1 = k) with
  | some p => p.2.created_at
  | none => 0

/-- The initial queue (linearization.py lines 73-80): ids of in-degree zero
in node-dict order, sorted stably by creation time. -/
def initialQueue (g : DebateDAG) : List String :=
  List.insertionSort (fun a b => createdOf g a ≤ createdOf g b)
    (g.keys.filter (fun k => indeg0 g k = 0))

/-- One relaxation pass over a popped node's successor list (linearization.py
lines 89-95): decrement each target's count, enqueueing a target exactly
when its count reaches zero. -/
def relaxAll (indeg : String → ℤ) (q : List String) :
    List String → (String → ℤ) × List String
  | [] => (indeg, q)
  | w :: ws =>
    relaxAll (fun k => if k = w then indeg w - 1 else indeg k)
      (if indeg w - 1 = 0 then q ++ [w] else q) ws

/-- Kahn's while loop (linearization.py lines 82-95), fuelled by the node
count: each id is enqueued at most once (its count decreases strictly and
passes zero at most once), so the loop runs at most |nodes| iterations and
the fuel never runs out before the queue empties. -/
def kahnGo (g : DebateDAG) : Nat → List String → (String → ℤ) → List String → List String
  | 0, _, _, acc => acc
  | _ + 1, [], _, acc => acc
  | fuel + 1, v :: qs, indeg, acc =>
    let st := relaxAll indeg qs (adjOf g v)
    kahnGo g fuel st.2 st.1 (acc ++ [v])

/-- LinearizationEngine._topological_sort (linearization.py lines 51-101):
none models the ValueError raised when a cycle prevented consuming every
node. -/
def topologicalSort (g : DebateDAG) : Option (List String) :=
  let res := kahnGo g g.keys.length (initialQueue g) (indeg0 g) []
  if res.length = g.keys.length then some res else none

/-- LinearizationEngine._chronological_order (linearization.py
lines 103-112). -/
def chronologicalOrder (g : DebateDAG) : List String :=
  (getAllNodes g).map ArgumentNode.node_id

/-- LinearizationEngine.linearize (linearization.py lines 33-49): the cycle
error is caught and answered with the chronological order; nothing
propagates. -/
def linearize (g : DebateDAG) : List String :=
  match topologicalSort g with
  | some res => res
  | none => chronologicalOrder g

/-- Every edge endpoint names a stored node (the add_edge invariant). -/
def EdgesClosed (g : DebateDAG) : Prop :=
  ∀ e ∈ g.edges, e.from_node_id ∈ g.keys ∧ e.to_node_id ∈ g.keys

/-- The directed edge relation of the graph. -/
def EdgeRel (g : DebateDAG) (u v : String) : Prop :=
  ∃ e ∈ g.edges, e.from_node_id = u ∧ e.to_node_id = v

/-- Acyclicity: no nonempty edge path returns to its start. -/
def Acyclic (g : DebateDAG) : Prop :=
  ∀ u, ¬ Relation.TransGen (EdgeRel g) u u

lemma inCount_nonneg (g : DebateDAG) (P : List String) (k : String) :
    0 ≤ inCount g P k := Int.ofNat_nonneg _

lemma inCount_zero (g : DebateDAG) (P : List String) (k : String)
    (h : inCount g P k = 0) :
    ∀ e ∈ g.edges, e.to_node_id = k → e.from_node_id ∈ P := by
  intro e he hto
  unfold inCount at h
  have hempty : g.edges.filter (fun e => decide (e.to_node_id = k ∧ e.from_node_id ∉ P)) = [] := by
    have := Int.ofNat_inj.mp h
    exact List.length_eq_zero.mp this
  by_contra hfr
  have : e ∈ g.edges.filter (fun e => decide (e.to_node_id = k ∧ e.from_node_id ∉ P)) :=
    List.mem_filter.mpr ⟨he, by simp [hto, hfr]⟩
  rw [hempty] at this
  exact absurd this (List.not_mem_nil e)

lemma inCount_pos (g : DebateDAG) (P : List String) (k : String)
    (h : 0 < inCount g P k) :
    ∃ e ∈ g.edges, e.to_node_id = k ∧ e.from_node_id ∉ P := by
  unfold inCount at h
  have hlen : 0 < (g.edges.filter (fun e => decide (e.to_node_id = k ∧ e.from_node_id ∉ P))).length := by
    exact_mod_cast h
  rcases List.exists_mem_of_length_pos hlen with ⟨e, he⟩
  have hm := List.mem_filter.mp he
  refine ⟨e, hm.1, ?_⟩
  simpa using hm.2

lemma inCount_append (g : DebateDAG) (P : List String) (v : String) (hv : v ∉ P)
    (k : String) :
    inCount g (P ++ [v]) k = inCount g P k - countEdges g v k := by
  unfold inCount countEdges
  have key : ∀ es : List Edge,
      ((es.filter (fun e => decide (e.to_node_id = k ∧ e.from_node_id ∉ P))).length : ℤ)
        = ((es.filter (fun e => decide (e.to_node_id = k ∧ e.from_node_id ∉ P ++ [v]))).length : ℤ)
          + ((es.filter (fun e => decide (e.from_node_id = v ∧ e.to_node_id = k))).length : ℤ) := by
    intro es
    induction es with
    | nil => rfl
    | cons e t ih =>
      simp only [List.filter_cons]
      by_cases hto : e.to_node_id = k
      · by_cases hfv : e.from_node_id = v
        · have h1 : decide (e.to_node_id = k ∧ e.from_node_id ∉ P) = true := by
            simp [hto, hfv, hv]
          have h2 : decide (e.to_node_id = k ∧ e.from_node_id ∉ P ++ [v]) = false := by
            simp [hto, hfv]
          have h3 : decide (e.from_node_id = v ∧ e.to_node_id = k) = true := by
            simp [hto, hfv]
          simp only [h1, h2, h3, if_true, if_false, Bool.false_eq_true, List.length_cons]
          omega
        · by_cases hfp : e.from_node_id ∈ P
          · have h1 : decide (e.to_node_id = k ∧ e.from_node_id ∉ P) = false := by
              simp [hto, hfp]
            have h2 : decide (e.to_node_id = k ∧ e.from_node_id ∉ P ++ [v]) = false := by
              simp [hto, hfp]
            have h3 : decide (e.from_node_id = v ∧ e.to_node_id = k) = false := by
              simp [hfv]
            simp only [h1, h2, h3, if_true, if_false, Bool.false_eq_true, List.length_cons]
            omega
          · have h1 : decide (e.to_node_id = k ∧ e.from_node_id ∉ P) = true := by
              simp [hto, hfp]
            have h2 : decide (e.to_node_id = k ∧ e.from_node_id ∉ P ++ [v]) = true := by
              simp [hto, hfp, hfv]
            have h3 : decide (e.from_node_id = v ∧ e.to_node_id = k) = false := by
              simp [hfv]
            simp only [h1, h2, h3, if_true, if_false, Bool.false_eq_true, List.length_cons]
            omega
      · have h1 : decide (e.to_node_id = k ∧ e.from_node_id ∉ P) = false := by
          simp [hto]
        have h2 : decide (e.to_node_id = k ∧ e.from_node_id ∉ P ++ [v]) = false := by
          simp [hto]
        have h3 : decide (e.from_node_id = v ∧ e.to_node_id = k) = false := by
          simp [hto]
        simp only [h1, h2, h3, if_true, if_false, Bool.false_eq_true, List.length_cons]
        omega
  have := key g.edges
  omega

lemma count_adjOf (g : DebateDAG) (v k : String) :
    ((adjOf g v).count k : ℤ) = countEdges g v k := by
  unfold adjOf countEdges
  have key : ∀ es : List Edge,
      ((es.filter (fun e => decide (e.from_node_id = v))).map Edge.to_node_id).count k
        = (es.filter (fun e => decide (e.from_node_id = v ∧ e.to_node_id = k))).length := by
    intro es
    induction es with
    | nil => rfl
    | cons e t ih =>
      simp only [List.filter_cons]
      by_cases hfv : e.from_node_id = v
      · have h1 : decide (e.from_node_id = v) = true := by simp [hfv]
        by_cases hto : e.to_node_id = k
        · have h3 : decide (e.from_node_id = v ∧ e.to_node_id = k) = true := by
            simp [hfv, hto]
          simp only [h1, h3, if_true, List.map_cons, List.length_cons, List.count_cons]
          simp [hto, ih]
        · have h3 : decide (e.from_node_id = v ∧ e.to_node_id = k) = false := by
            simp [hto]
          simp only [h1, h3, if_true, if_false, Bool.false_eq_true, List.map_cons,
            List.count_cons]
          simp [hto, ih]
      · have h1 : decide (e.from_node_id = v) = false := by simp [hfv]
        have h3 : decide (e.from_node_id = v ∧ e.to_node_id = k) = false := by simp [hfv]
        simp only [h1, h3, if_true, if_false, Bool.false_eq_true]
        exact ih
  rw [key g.edges]

lemma relaxAll_fst (ws : List String) :
    ∀ (indeg : String → ℤ) (q : List String) (k : String),
      (relaxAll indeg q ws).1 k = indeg k - ws.count k := by
  induction ws with
  | nil =>
    intro indeg q k
    simp [relaxAll]
  | cons w t ih =>
    intro indeg q k
    simp only [relaxAll]
    rw [ih]
    by_cases hk : k = w
    · subst hk
      rw [if_pos rfl]
      have hc : List.count k (k :: t) = List.count k t + 1 := List.count_cons_self _ _
      omega
    · rw [if_neg hk]
      have hc : List.count k (w :: t) = List.count k t := by
        rw [List.count_cons]
        simp [Ne.symm hk, hk]
      omega

lemma relaxAll_mem (ws : List String) :
    ∀ (indeg : String → ℤ) (q : List String) (x : String),
      x ∈ (relaxAll indeg q ws).2
        ↔ x ∈ q ∨ (1 ≤ indeg x ∧ indeg x - ws.count x ≤ 0) := by
  induction ws with
  | nil =>
    intro indeg q x
    simp only [relaxAll, List.count_nil]
    constructor
    · exact Or.inl
    · rintro (h | ⟨h1, h2⟩)
      · exact h
      · omega
  | cons w t ih =>
    intro indeg q x
    simp only [relaxAll]
    rw [ih]
    by_cases hx : x = w
    · subst hx
      rw [if_pos rfl]
      have hc : List.count x (x :: t) = List.count x t + 1 := List.count_cons_self _ _
      by_cases hd : indeg x - 1 = 0
      · rw [if_pos hd]
        constructor
        · intro _
          right
          omega
        · intro _
          left
          simp
      · rw [if_neg hd]
        constructor
        · rintro (h | ⟨h1, h2⟩)
          · exact Or.inl h
          · right
            omega
        · rintro (h | ⟨h1, h2⟩)
          · exact Or.inl h
          · right
            omega
    · have hir : (if x = w then indeg w - 1 else indeg x) = indeg x := if_neg hx
      rw [hir]
      have hc : List.count x (w :: t) = List.count x t := by
        rw [List.count_cons]
        simp [hx, Ne.symm hx]
      have hq : (x ∈ (if indeg w - 1 = 0 then q ++ [w] else q)) ↔ x ∈ q := by
        split
        · simp [hx]
        · rfl
      rw [hq, hc]

lemma relaxAll_nodup_zero (ws : List String) :
    ∀ (indeg : String → ℤ) (q : List String),
      q.Nodup → (∀ x ∈ q, indeg x ≤ 0) →
      (relaxAll indeg q ws).2.Nodup
        ∧ ∀ x ∈ (relaxAll indeg q ws).2, (relaxAll indeg q ws).1 x ≤ 0 := by
  induction ws with
  | nil =>
    intro indeg q h1 h2
    simpa [relaxAll] using ⟨h1, h2⟩
  | cons w t ih =>
    intro indeg q h1 h2
    simp only [relaxAll]
    by_cases hd : indeg w - 1 = 0
    · rw [if_pos hd]
      apply ih
      · rw [List.nodup_append]
        refine ⟨h1, by simp, ?_⟩
        intro a ha hab
        simp only [List.mem_singleton] at hab
        subst hab
        have := h2 a ha
        omega
      · intro x hx
        by_cases hxw : x = w
        · subst hxw
          rw [if_pos rfl]
          omega
        · rw [if_neg hxw]
          rcases List.mem_append.mp hx with h | h
          · exact h2 x h
          · simp only [List.mem_singleton] at h
            exact absurd h hxw
    · rw [if_neg hd]
      apply ih _ _ h1
      intro x hx
      by_cases hxw : x = w
      · subst hxw
        rw [if_pos rfl]
        have := h2 x hx
        omega
      · rw [if_neg hxw]
        exact h2 x hx

/-- The loop invariant of Kahn's algorithm: acc is the processed prefix (in
emission order), queue the pending zero-in-degree ids, indeg the running
count dict. -/
structure KState (g : DebateDAG) (queue : List String) (indeg : String → ℤ)
    (acc : List String) : Prop where
  acc_nd : acc.Nodup
  q_nd : queue.Nodup
  disj : ∀ x ∈ queue, x ∉ acc
  acc_sub : ∀ x ∈ acc, x ∈ g.keys
  q_sub : ∀ x ∈ queue, x ∈ g.keys
  ind : ∀ k, indeg k = inCount g acc k
  fresh : ∀ k ∈ g.keys, k ∉ acc → k ∉ queue → 0 < indeg k
  ordered : ∀ e ∈ g.edges, e.to_node_id ∈ acc →
    e.from_node_id ∈ acc ∧ acc.indexOf e.from_node_id < acc.indexOf e.to_node_id
  q_pred : ∀ e ∈ g.edges, e.to_node_id ∈ queue → e.from_node_id ∈ acc

lemma KState.q_zero {g : DebateDAG} {queue : List String} {indeg : String → ℤ}
    {acc : List String} (h : KState g queue indeg acc) :
    ∀ x ∈ queue, indeg x = 0 := by
  intro x hx
  rw [h.ind x]
  by_contra hne
  have hpos : 0 < inCount g acc x :=
    lt_of_le_of_ne (inCount_nonneg g acc x) (Ne.symm hne)
  rcases inCount_pos g acc x hpos with ⟨e, he, hto, hfr⟩
  exact hfr (h.q_pred e he (hto ▸ hx))

lemma KState.acc_zero {g : DebateDAG} {queue : List String} {indeg : String → ℤ}
    {acc : List String} (h : KState g queue indeg acc) :
    ∀ x ∈ acc, inCount g acc x = 0 := by
  intro x hx
  refine le_antisymm ?_ (inCount_nonneg g acc x)
  by_contra hgt
  push_neg at hgt
  rcases inCount_pos g acc x hgt with ⟨e, he, hto, hfr⟩
  exact hfr ((h.ordered e he (hto ▸ hx)).1)

lemma kstate_step {g : DebateDAG} (hcl : EdgesClosed g)
    {v : String} {qs : List String} {indeg : String → ℤ} {acc : List String}
    (h : KState g (v :: qs) indeg acc) :
    KState g (relaxAll indeg qs (adjOf g v)).2 (relaxAll indeg qs (adjOf g v)).1
      (acc ++ [v]) := by
  have hvq : v ∈ v :: qs := by simp
  have hvacc : v ∉ acc := h.disj v hvq
  have hv0 : indeg v = 0 := h.q_zero v hvq
  have hq0 : ∀ x ∈ qs, indeg x = 0 := fun x hx => h.q_zero x (by simp [hx])
  have hqnd : qs.Nodup := (List.nodup_cons.mp h.q_nd).2
  have hvqs : v ∉ qs := (List.nodup_cons.mp h.q_nd).1
  have hfst : ∀ k, (relaxAll indeg qs (adjOf g v)).1 k = inCount g (acc ++ [v]) k := by
    intro k
    rw [relaxAll_fst, h.ind k, inCount_append g acc v hvacc k, ← count_adjOf]
  have hmem : ∀ x, x ∈ (relaxAll indeg qs (adjOf g v)).2
      ↔ x ∈ qs ∨ (1 ≤ indeg x ∧ indeg x - (adjOf g v).count x ≤ 0) :=
    fun x => relaxAll_mem (adjOf g v) indeg qs x
  have hnz := relaxAll_nodup_zero (adjOf g v) indeg qs hqnd
    (fun x hx => le_of_eq (hq0 x hx))
  have hnew_not_acc : ∀ x, 1 ≤ indeg x → x ∉ acc ∧ x ≠ v := by
    intro x h1
    constructor
    · intro hxacc
      rw [h.ind x, h.acc_zero x hxacc] at h1
      omega
    · intro hxv
      rw [hxv, hv0] at h1
      omega
  refine ⟨?_, hnz.1, ?_, ?_, ?_, hfst, ?_, ?_, ?_⟩
  · rw [List.nodup_append]
    refine ⟨h.acc_nd, by simp, ?_⟩
    intro a ha hab
    simp only [List.mem_singleton] at hab
    exact hvacc (hab ▸ ha)
  · intro x hx
    rcases (hmem x).mp hx with hxs | ⟨h1, _⟩
    · intro hmem2
      rcases List.mem_append.mp hmem2 with hm | hm
      · exact h.disj x (by simp [hxs]) hm
      · simp only [List.mem_singleton] at hm
        exact hvqs (hm ▸ hxs)
    · intro hmem2
      rcases List.mem_append.mp hmem2 with hm | hm
      · exact (hnew_not_acc x h1).1 hm
      · simp only [List.mem_singleton] at hm
        exact (hnew_not_acc x h1).2 hm
  · intro x hx
    rcases List.mem_append.mp hx with hm | hm
    · exact h.acc_sub x hm
    · simp only [List.mem_singleton] at hm
      exact hm ▸ h.q_sub v hvq
  · intro x hx
    rcases (hmem x).mp hx with hxs | ⟨h1, _⟩
    · exact h.q_sub x (by simp [hxs])
    · rw [h.ind x] at h1
      rcases inCount_pos g acc x (by omega) with ⟨e, he, hto, _⟩
      exact hto ▸ (hcl e he).2
  · intro k hk hk1 hk2
    have hknotv : k ≠ v := by
      intro hkv
      exact hk1 (by simp [hkv])
    have hknacc : k ∉ acc := fun hm => hk1 (List.mem_append.mpr (Or.inl hm))
    have hknqs : k ∉ qs := by
      intro hm
      exact hk2 ((hmem k).mpr (Or.inl hm))
    have hold : 0 < indeg k := h.fresh k hk hknacc (by simp [hknotv, hknqs])
    have hnotnew : ¬(1 ≤ indeg k ∧ indeg k - (adjOf g v).count k ≤ 0) := by
      intro hc
      exact hk2 ((hmem k).mpr (Or.inr hc))
    rw [relaxAll_fst]
    omega
  · intro e he hto
    rcases List.mem_append.mp hto with hm | hm
    · have hord := h.ordered e he hm
      refine ⟨List.mem_append.mpr (Or.inl hord.1), ?_⟩
      rw [List.indexOf_append_of_mem hord.1, List.indexOf_append_of_mem hm]
      exact hord.2
    · simp only [List.mem_singleton] at hm
      have hfr : e.from_node_id ∈ acc := h.q_pred e he (hm ▸ hvq)
      refine ⟨List.mem_append.mpr (Or.inl hfr), ?_⟩
      rw [List.indexOf_append_of_mem hfr, hm, List.indexOf_append_of_not_mem hvacc,
        List.indexOf_cons_self]
      have := List.indexOf_lt_length.mpr hfr
      omega
  · intro e he hto
    rcases (hmem e.to_node_id).mp hto with hxs | hcnd
    · exact List.mem_append.mpr (Or.inl (h.q_pred e he (by simp [hxs])))
    · have hzero : inCount g (acc ++ [v]) e.to_node_id = 0 := by
        have hle := hnz.2 e.to_node_id hto
        rw [hfst] at hle
        exact le_antisymm hle (inCount_nonneg _ _ _)
      exact inCount_zero g (acc ++ [v]) e.to_node_id hzero e he rfl

lemma kstate_init (g : DebateDAG) (hwf : WfDAG g) :
    KState g (initialQueue g) (indeg0 g) [] := by
  have hperm : (initialQueue g).Perm (g.keys.filter (fun k => indeg0 g k = 0)) :=
    List.perm_insertionSort _ _
  have hqmem : ∀ x, x ∈ initialQueue g ↔ (x ∈ g.keys ∧ indeg0 g x = 0) := by
    intro x
    rw [hperm.mem_iff, List.mem_filter]
    simp
  refine ⟨List.nodup_nil, ?_, ?_, ?_, ?_, ?_, ?_, ?_, ?_⟩
  · exact hperm.nodup_iff.mpr (List.Nodup.filter _ hwf.1)
  · intro x _
    exact List.not_mem_nil x
  · intro x hx
    exact absurd hx (List.not_mem_nil x)
  · intro x hx
    exact ((hqmem x).mp hx).1
  · intro k
    unfold indeg0 inCount
    congr 2
    apply List.filter_congr
    intro e _
    simp
  · intro k hk _ hknq
    have hne : ¬ (indeg0 g k = 0) := fun h0 => hknq ((hqmem k).mpr ⟨hk, h0⟩)
    have hnn : 0 ≤ indeg0 g k := Int.ofNat_nonneg _
    omega
  · intro e _ hto
    exact absurd hto (List.not_mem_nil _)
  · intro e he hto
    have h0 : indeg0 g e.to_node_id = 0 := ((hqmem _).mp hto).2
    exfalso
    unfold indeg0 at h0
    have hmem : e ∈ g.edges.filter (fun x => decide (x.to_node_id = e.to_node_id)) :=
      List.mem_filter.mpr ⟨he, by simp⟩
    have hpos : 0 < (g.edges.filter (fun x => decide (x.to_node_id = e.to_node_id))).length :=
      List.length_pos.mpr (fun hnil => by
        rw [hnil] at hmem
        exact absurd hmem (List.not_mem_nil _))
    omega

lemma cycle_of_all_pred {S : List String} (hS : S ≠ [])
    {R : String → String → Prop} (hpred : ∀ v ∈ S, ∃ u ∈ S, R u v) :
    ∃ v, Relation.TransGen R v v := by
  classical
  haveI hfin : Finite {x // x ∈ S} := Set.Finite.to_subtype (List.finite_toSet S)
  obtain ⟨s0, hs0⟩ : ∃ s, s ∈ S := List.exists_mem_of_ne_nil S hS
  let f : {x // x ∈ S} → {x // x ∈ S} :=
    fun x => ⟨(hpred x.1 x.2).choose, ((hpred x.1 x.2).choose_spec).1⟩
  have hf : ∀ x : {x // x ∈ S}, R (f x).1 x.1 :=
    fun x => ((hpred x.1 x.2).choose_spec).2
  let seq : ℕ → {x // x ∈ S} := fun n => f^[n] ⟨s0, hs0⟩
  have hseq : ∀ n, seq (n + 1) = f (seq n) := by
    intro n
    simp only [seq, Function.iterate_succ_apply']
  have hstep : ∀ n, R (seq (n + 1)).1 (seq n).1 := by
    intro n
    rw [hseq n]
    exact hf (seq n)
  have hchain : ∀ d n, Relation.TransGen R (seq (n + d + 1)).1 (seq n).1 := by
    intro d
    induction d with
    | zero =>
      intro n
      exact Relation.TransGen.single (hstep n)
    | succ d ih =>
      intro n
      exact Relation.TransGen.head (hstep (n + d + 1)) (ih n)
  obtain ⟨m, n, hne, heq⟩ := Finite.exists_ne_map_eq_of_infinite seq
  rcases Nat.lt_or_ge m n with hlt | hge
  · refine ⟨(seq m).1, ?_⟩
    have hd : m + (n - m - 1) + 1 = n := by omega
    have hc := hchain (n - m - 1) m
    rw [hd, ← heq] at hc
    exact hc
  · have hlt2 : n < m := lt_of_le_of_ne hge (Ne.symm hne)
    refine ⟨(seq n).1, ?_⟩
    have hd : n + (m - n - 1) + 1 = m := by omega
    have hc := hchain (m - n - 1) n
    rw [hd, heq] at hc
    exact hc

lemma kahnGo_spec (g : DebateDAG) (hwf : WfDAG g) (hcl : EdgesClosed g) :
    ∀ (fuel : Nat) (queue : List String) (indeg : String → ℤ) (acc : List String),
      KState g queue indeg acc →
      fuel + acc.length = g.keys.length →
      (∃ rest, kahnGo g fuel queue indeg acc = acc ++ rest)
      ∧ (kahnGo g fuel queue indeg acc).Nodup
      ∧ (∀ x ∈ kahnGo g fuel queue indeg acc, x ∈ g.keys)
      ∧ (∀ e ∈ g.edges, e.to_node_id ∈ kahnGo g fuel queue indeg acc →
          e.from_node_id ∈ kahnGo g fuel queue indeg acc
          ∧ (kahnGo g fuel queue indeg acc).indexOf e.from_node_id
              < (kahnGo g fuel queue indeg acc).indexOf e.to_node_id)
      ∧ (Acyclic g → (kahnGo g fuel queue indeg acc).length = g.keys.length) := by
  intro fuel
  induction fuel with
  | zero =>
    intro queue indeg acc hst hlen
    simp only [kahnGo]
    exact ⟨⟨[], by simp⟩, hst.acc_nd, hst.acc_sub,
      fun e he hto => hst.ordered e he hto, fun _ => by omega⟩
  | succ n ih =>
    intro queue indeg acc hst hlen
    cases queue with
    | nil =>
      simp only [kahnGo]
      refine ⟨⟨[], by simp⟩, hst.acc_nd, hst.acc_sub,
        fun e he hto => hst.ordered e he hto, ?_⟩
      intro hacy
      by_contra hnelen
      have hsub : List.Subperm acc g.keys := List.subperm_of_subset hst.acc_nd
        (fun x hx => hst.acc_sub x hx)
      have hex : ∃ k ∈ g.keys, k ∉ acc := by
        by_contra hall
        push_neg at hall
        have hsub2 : List.Subperm g.keys acc := List.subperm_of_subset hwf.1
          (fun x hx => hall x hx)
        have h1 := hsub.length_le
        have h2 := hsub2.length_le
        omega
      have hSne : g.keys.filter (fun k => decide (k ∉ acc)) ≠ [] := by
        rcases hex with ⟨k, hk1, hk2⟩
        intro hnil
        have hmem : k ∈ g.keys.filter (fun k => decide (k ∉ acc)) :=
          List.mem_filter.mpr ⟨hk1, by simp [hk2]⟩
        rw [hnil] at hmem
        exact absurd hmem (List.not_mem_nil _)
      have hpred : ∀ v ∈ g.keys.filter (fun k => decide (k ∉ acc)),
          ∃ u ∈ g.keys.filter (fun k => decide (k ∉ acc)), EdgeRel g u v := by
        intro v hv
        have hvk := (List.mem_filter.mp hv).1
        have hvacc : v ∉ acc := by simpa using (List.mem_filter.mp hv).2
        have hfr : 0 < indeg v := hst.fresh v hvk hvacc (List.not_mem_nil v)
        rw [hst.ind v] at hfr
        rcases inCount_pos g acc v hfr with ⟨e, he, hto, hfrom⟩
        refine ⟨e.from_node_id, ?_, ⟨e, he, rfl, hto⟩⟩
        exact List.mem_filter.mpr ⟨(hcl e he).1, by simp [hfrom]⟩
      rcases cycle_of_all_pred hSne hpred with ⟨v, hcyc⟩
      exact hacy v hcyc
    | cons v qs =>
      simp only [kahnGo]
      have hstep := kstate_step hcl hst
      have hlen' : n + (acc ++ [v]).length = g.keys.length := by
        simp only [List.length_append, List.length_singleton]
        omega
      rcases ih _ _ _ hstep hlen' with ⟨⟨rest, hrest⟩, hnd, hsub, hord, hacylen⟩
      exact ⟨⟨[v] ++ rest, by rw [hrest]; simp⟩, hnd, hsub, hord, hacylen⟩

/-- Root node of the three-node scenario from the claim. -/
def witNodeRootA : ArgumentNode :=
  { node_id := "A", node_type := NodeType.EXPLORATION, topic := "ta", resolution := "ra",
    passage := some "p", created_at := 0 }

/-- Branch node B of the scenario, branching from A. -/
def witNodeBranchB : ArgumentNode :=
  { node_id := "B", node_type := NodeType.SYNTHESIS, topic := "tb", resolution := "rb",
    branch_question := some "q1", created_at := 1 }

/-- Branch node C of the scenario, branching from A and created after B. -/
def witNodeBranchC : ArgumentNode :=
  { node_id := "C", node_type := NodeType.SYNTHESIS, topic := "tc", resolution := "rc",
    branch_question := some "q2", created_at := 2 }

/-- The 3-node scenario graph: A root, B and C branch from A, C created
after B. -/
def witABC : DebateDAG :=
  { nodes := [("A", witNodeRootA), ("B", witNodeBranchB), ("C", witNodeBranchC)]
    edges := [{ from_node_id := "A", to_node_id := "B", edge_type := EdgeType.BRANCHES_FROM },
              { from_node_id := "A", to_node_id := "C", edge_type := EdgeType.BRANCHES_FROM }] }

lemma acyclic_of_rank (g : DebateDAG) (rank : String → Nat)
    (h : ∀ e ∈ g.edges, rank e.from_node_id < rank e.to_node_id) : Acyclic g := by
  intro u hcyc
  have hmono : ∀ a b : String, Relation.TransGen (EdgeRel g) a b → rank a < rank b := by
    intro a b hab
    induction hab with
    | single hstep =>
      rcases hstep with ⟨e, he, hfa, hta⟩
      rw [← hfa, ← hta]
      exact h e he
    | tail _ hbc ih =>
      rcases hbc with ⟨e, he, hfb, htc⟩
      calc rank a < rank e.from_node_id := hfb ▸ ih
        _ < _ := htc ▸ h e he
  exact lt_irrefl _ (hmono u u hcyc)

/-- C9. Linearization is a valid topological order with a total fallback: on
a well-formed graph (distinct ids, edge endpoints present), if the edge
relation is acyclic then linearize returns a permutation of all node ids in
which every edge source appears strictly before its target; the initial
zero-in-degree frontier is ordered by node creation time, and the concrete
three-node scenario (A root, B branching from A, C branching from A and
created after B) linearizes as A, B, C; when the topological sort cannot
consume every node (a cycle), linearize instead returns all nodes in
chronological createdAt order — it is a total function and never raises. -/
theorem linearization_topological_order (g : DebateDAG)
    (hwf : WfDAG g) (hcl : EdgesClosed g) :
    (Acyclic g →
      ∃ res, topologicalSort g = some res ∧ linearize g = res
        ∧ res.Perm g.keys
        ∧ ∀ e ∈ g.edges, res.indexOf e.from_node_id < res.indexOf e.to_node_id)
    ∧ (topologicalSort g = none → linearize g = chronologicalOrder g)
    ∧ List.Sorted (fun a b => createdOf g a ≤ createdOf g b) (initialQueue g)
    ∧ linearize witABC = ["A", "B", "C"] := by
  rcases kahnGo_spec g hwf hcl g.keys.length (initialQueue g) (indeg0 g) []
      (kstate_init g hwf) (by simp)
    with ⟨_, hnd, hsub, hord, hacylen⟩
  refine ⟨?_, ?_, ?_, by decide⟩
  · intro hacy
    have hlen := hacylen hacy
    have hsome : topologicalSort g
        = some (kahnGo g g.keys.length (initialQueue g) (indeg0 g) []) := by
      unfold topologicalSort
      rw [if_pos hlen]
    have hperm : (kahnGo g g.keys.length (initialQueue g) (indeg0 g) []).Perm g.keys := by
      have hsp : List.Subperm (kahnGo g g.keys.length (initialQueue g) (indeg0 g) []) g.keys :=
        List.subperm_of_subset hnd (fun x hx => hsub x hx)
      exact hsp.perm_of_length_le (by omega)
    refine ⟨_, hsome, ?_, hperm, ?_⟩
    · unfold linearize
      rw [hsome]
    · intro e he
      have hto : e.to_node_id ∈ kahnGo g g.keys.length (initialQueue g) (indeg0 g) [] :=
        hperm.mem_iff.mpr (hcl e he).2
      exact (hord e he hto).2
  · intro hnone
    unfold linearize
    rw [hnone]
  · haveI : IsTotal String (fun a b => createdOf g a ≤ createdOf g b) :=
      ⟨fun a b => le_total _ _⟩
    haveI : IsTrans String (fun a b => createdOf g a ≤ createdOf g b) :=
      ⟨fun a b c hab hbc => le_trans hab hbc⟩
    exact List.sorted_insertionSort _ _

lemma witABC_wf : WfDAG witABC := by
  refine ⟨?_, ?_⟩
  · simp [witABC, DebateDAG.keys]
  · intro p hp
    simp only [witABC, List.mem_cons, List.not_mem_nil, or_false] at hp
    rcases hp with h | h | h <;> subst h <;> rfl

/-- Closed witness for C9: the three-node scenario graph is well formed and
acyclic (ranked A before B and C); the theorem yields a topological
permutation with every edge source before its target, and the order is
exactly A, B, C. -/
lemma witABC_closed : EdgesClosed witABC := by
  unfold EdgesClosed
  decide

theorem linearization_topological_order_witness :
    (∃ res, topologicalSort witABC = some res ∧ linearize witABC = res
      ∧ res.Perm witABC.keys
      ∧ ∀ e ∈ witABC.edges, res.indexOf e.from_node_id < res.indexOf e.to_node_id)
    ∧ linearize witABC = ["A", "B", "C"] := by
  have h := linearization_topological_order witABC witABC_wf witABC_closed
  exact ⟨h.1 (acyclic_of_rank witABC (fun s => if s = "A" then 0 else 1) (by decide)),
    h.2.2.2⟩

end DialecticalDebate
